import Mathlib

/-!
Verification of the SGo translator and type checker against its specification.

The development shallowly embeds the SGo-specific parts of the source:

1. the type universe (basic kinds, composite types, Optional, entangled
   tuples), mirroring the types package;
2. the failure-side return rewriting of the code generator
   (convertReturnStmt in codegen.go);
3. the assignment checker (checkVars, assignVars, shortVarDecl, assignVar
   in the types package);
4. the optionable-path classification (findOptionables2 and assertableTo
   in lookup.go) together with a declarative characterization;
5. field and method lookup (lookupFieldOrMethod in lookup.go);
6. the importer's AST conversion (convertAST in the importer package);
7. the side-car annotation parser (the annotations package).

Machine integers do not occur on any modelled path, and all data is
finite, so the embedding uses plain inductive types and executable
functions.  Fallible or panicking source code is modelled with Option.
-/

namespace SGo

/-- Basic kinds, as distinguished by the info flags of the types package
(IsBoolean, IsInteger, IsFloat, IsComplex, IsString); kuntypedNil and
kother stand for basic types carrying none of these flags. -/
inductive BasicK where
  | kbool
  | kint
  | kfloat
  | kcomplex
  | kstring
  | kuntypedNil
  | kother
  deriving DecidableEq, Repr

/-- The SGo type universe.  Mirrors the Type implementations of the types
package: Basic, Pointer, Slice, Array, Map, Chan, Signature, Interface,
Struct, Named, Optional and Tuple.

A signature carries its receiver (Some for methods), parameter and result
types.  An interface carries its method set as name/signature pairs (the
allMethods field).  A struct carries its fields as name/anonymous/type
triples.  A named type carries a numeric identity standing for the object
identity that the Go code compares pointers on, its declared methods, and
its underlying type (which is never itself named, as in the types
package).  A tuple carries its ordered element types and the optional
entangled tail. -/
inductive GoType where
  | basic (k : BasicK)
  | pointer (elem : GoType)
  | slice (elem : GoType)
  | array (elem : GoType)
  | mapT (key elem : GoType)
  | chan (elem : GoType)
  | sig (recv : Option GoType) (params : List GoType) (results : List GoType)
  | iface (methods : List (String × GoType))
  | structT (fields : List (String × Bool × GoType))
  | named (id : Nat) (methods : List (String × GoType)) (underlying : GoType)
  | optional (elem : GoType)
  | tuple (elems : List GoType) (entangled : Option GoType)
  deriving Repr

namespace GoType

/-- Underlying type: a named type yields its stored underlying type, every
other type yields itself (method Underlying in the types package). -/
def underlying : GoType → GoType
  | .named _ _ u => u
  | t => t

end GoType

/-! ## C1: failure-side zero literals in convertReturnStmt (codegen.go) -/

/-- The zero literal emitted by convertReturnStmt (codegen.go, lines
786 to 811) for one non-tail result whose declared type is t; printedType
is the source text of the result's AST type, used for struct literals.
The switch is on the underlying type; the unhandled default (notably
channels, arrays, tuples) panics in the source, modelled as none. -/
def zeroLiteral (printedType : String) (t : GoType) : Option String :=
  match t.underlying with
  | .pointer _ => some "nil"
  | .mapT _ _ => some "nil"
  | .slice _ => some "nil"
  | .sig _ _ _ => some "nil"
  | .iface _ => some "nil"
  | .optional _ => some "nil"
  | .structT _ => some (printedType ++ "\x7b\x7d")
  | .basic k =>
    match k with
    | .kbool => some "false"
    | .kint => some "0"
    | .kfloat => some "0.0"
    | .kcomplex => some "0.0"
    | .kstring => some "\"\""
    | _ => some "nil"
  | _ => none

/-- The results clause of the enclosing function: the declared non-tail
result types, paired with the printed source text of their AST type, plus
the entangled tail type (lastFunc.Results in codegen.go). -/
structure FuncResults where
  results : List (GoType × String)
  entangled : Option GoType

/-- Failure-side rewriting of convertReturnStmt (codegen.go, lines 781 to
815): a return with EntangledPos 1 (return backslash tail) is emitted as
the zero literal of every declared non-tail result, in declaration order,
followed by the tail expression text.  A panic while computing a zero
literal is modelled as none. -/
def convertReturnFailure (fr : FuncResults) (tailText : String) : Option (List String) :=
  (fr.results.mapM (fun ts => zeroLiteral ts.2 ts.1)).map (· ++ [tailText])

/-- Success-side rewriting of convertReturnStmt (codegen.go, lines 819 to
826): a return with EntangledPos greater than 1 (return values backslash)
keeps the written values and appends the chunk true when the entangled
tail's type is the basic bool type, and nil otherwise. -/
def convertReturnSuccess (fr : FuncResults) (vals : List String) : List String :=
  vals ++ [match fr.entangled with
           | some (.basic .kbool) => "true"
           | _ => "nil"]

/-! ## Operands and shared predicates -/

/-- Operand modes of the types package. -/
inductive Mode where
  | invalid
  | constant_
  | variable_
  | mapindex
  | value
  | commaok
  deriving DecidableEq, Repr

/-- An evaluated right-hand-side operand: its mode, its type, and, for
boolean constants, the constant's value (constant.BoolVal). -/
structure Operand where
  mode : Mode
  typ : GoType
  boolVal : Option Bool
  deriving Repr

/-- Modelled from the spec: IsOptionable, the types package's exported
optionable-kind predicate (its defining file is not under src/; its
callers in lookup.go and convertast.go are).  Per the spec the optionable
kinds, which admit nil in the base language, are pointer, map, interface,
channel and function; the predicate looks through named types. -/
def IsOptionable (t : GoType) : Bool :=
  match t.underlying with
  | .pointer _ => true
  | .mapT _ _ => true
  | .iface _ => true
  | .chan _ => true
  | .sig _ _ _ => true
  | _ => false

/-- Modelled from the spec: the basic-kind predicate isBoolean of the
types package (its defining file is not under src/): a type whose
underlying type is the basic bool kind. -/
def isBoolean (t : GoType) : Bool :=
  match t.underlying with
  | .basic .kbool => true
  | _ => false

/-- Modelled from the spec: isBooleanConst of the types package (its
defining file is not under src/): a constant-mode operand of boolean
type. -/
def isBooleanConst (x : Operand) : Bool :=
  x.mode == .constant_ && isBoolean x.typ

/-! ## C2, C7: checkVars (assignment and return checking) -/

/-- Diagnostics emitted by the modelled checkVars run.  Each constructor
stands for one check.error or check.errorf call site of checkVars in the
assignment-checking file. -/
inductive CheckErr where
  | rhsEntangledInAssignment
  | valuesOnBothSides
  | lhsNotEntangled
  | rhsNotEntangled
  | entangledBoolNotFalse (i : Nat)
  | wrongReturnCount (want got : Nat)
  | countMismatch (want got : Nat)
  | setVarFailed (i : Nat)
  deriving DecidableEq, Repr

/-- The condition under which the evaluation closure inside checkVars
reports the diagnostic that an entangled bool must be the false constant:
the operand is boolean and is not a constant with value false. -/
def entangledBoolBad (x : Operand) : Bool :=
  isBoolean x.typ && (!(isBooleanConst x) || !(x.boolVal == some false))

/-- Modelled from the spec: unpack (the base checker's call handling, not
under src/) presents the right-hand side as a sequence of single-value
operands: a single operand of tuple type is spread into its arity, a
single comma-ok-capable operand is spread into two values when the caller
allows it, and a plain list is taken one by one; the getter is partial
beyond the produced arity.  Returns the arity and the comma-ok flag. -/
def unpackModel (ops : List Operand) (allowCommaOk : Bool) : Nat × Bool :=
  match ops with
  | [x] =>
    match x.typ with
    | .tuple elems (some _) => (elems.length + 1, false)
    | .tuple elems none => (elems.length, false)
    | _ =>
      if allowCommaOk && (x.mode == .commaok || x.mode == .mapindex) then (2, true)
      else (1, false)
  | _ => (ops.length, false)

/-- Input of a checkVars run: the number of left-hand (non-tail)
variables, the evaluated right-hand operands, the expression list's
EntangledPos (0 none, 1 only the tail side present, length plus one only
the non-tail side present), whether returnPos is valid (a return
statement), and whether an entangled left-hand variable is present. -/
structure CheckVarsIn where
  lhsLen : Nat
  rhs : List Operand
  entangledPos : Nat
  returnValid : Bool
  hasEntangledLhs : Bool

/-- First phase of checkVars: the branching on EntangledPos that fixes
the expected arity, whether the right-hand side is entangled, and the
diagnostics of that phase. -/
def checkVarsBranch (inp : CheckVarsIn) : Nat × Bool × List CheckErr :=
  let n := inp.rhs.length
  if inp.entangledPos == 0 && n > 0 then
    match (inp.rhs.headD ⟨.invalid, .basic .kother, none⟩).typ with
    | .tuple _ (some _) => (inp.lhsLen + 1, true, [])
    | .tuple _ none => (inp.lhsLen, false, [])
    | _ => (if inp.hasEntangledLhs then inp.lhsLen + 1 else inp.lhsLen, false, [])
  else if inp.entangledPos == 1 then
    (1, true, if inp.returnValid then [] else [.rhsEntangledInAssignment])
  else if inp.entangledPos == n + 1 then
    (inp.lhsLen, true, if inp.returnValid then [] else [.rhsEntangledInAssignment])
  else if n > 0 then
    (inp.lhsLen, true, [.valuesOnBothSides])
  else
    (inp.lhsLen, false, [])

/-- The diagnostics produced while the unpack getter evaluates each
right-hand expression: on an entangled right-hand side, every boolean
operand that is not the false constant is reported. -/
def evalBoolErrs (rhsIsEntangled : Bool) (ops : List Operand) : List CheckErr :=
  if rhsIsEntangled then
    (List.range ops.length).filterMap (fun i =>
      match ops[i]? with
      | some x => if entangledBoolBad x then some (.entangledBoolNotFalse i) else none
      | none => none)
  else []

/-- The checkVars function of the assignment-checking file (the version
whose EntangledPos convention is 0 none, 1 tail-only, length plus one
non-tail-only), reduced to the diagnostics it emits.  setVarFails is the
outcome of the setVar callback (initVar or assignVar) on each assigned
operand; the variable-store effects are modelled separately. -/
def checkVars (inp : CheckVarsIn) (setVarFails : Nat → Operand → Bool) : List CheckErr :=
  let (l, rhsE, errs1) := checkVarsBranch inp
  let errs2 := if rhsE && !inp.hasEntangledLhs then [CheckErr.lhsNotEntangled] else []
  let allowCommaOk := l == 2 && inp.hasEntangledLhs && !inp.returnValid
  let (r, commaOk) := unpackModel inp.rhs allowCommaOk
  let errsEval := evalBoolErrs rhsE inp.rhs
  let errs3 := if !commaOk && (!rhsE && inp.hasEntangledLhs) then [CheckErr.rhsNotEntangled] else []
  if l != r then
    errs1 ++ errs2 ++ errsEval ++ errs3 ++
      [if inp.returnValid then CheckErr.wrongReturnCount l r else CheckErr.countMismatch l r]
  else if commaOk then
    errs1 ++ errs2 ++ errsEval ++ errs3 ++
      (List.range 2).filterMap (fun i =>
        match inp.rhs[i]? with
        | some x => if setVarFails i x then some (CheckErr.setVarFailed i) else none
        | none => none)
  else
    errs1 ++ errs2 ++ errsEval ++ errs3 ++
      (List.range (inp.lhsLen + 1)).filterMap (fun i =>
        if i == inp.lhsLen && !inp.hasEntangledLhs then none
        else if inp.entangledPos == 1 && i != inp.lhsLen then none
        else if inp.entangledPos == inp.lhsLen + 1 && i == inp.lhsLen then none
        else
          match inp.rhs[i]? with
          | some x => if setVarFails i x then some (CheckErr.setVarFailed i) else none
          | none => none)

/-! ## C6: entangled marking in shortVarDecl and assignVars -/

/-- The flow-sensitive attributes of one variable object that the
entangled marking touches: the usable flag and the collapses set
(companion variables gated by this tail). -/
structure VarState where
  usable : Bool
  collapses : List Nat
  deriving Repr

/-- The variable store: each variable object, identified by a numeric
identity, mapped to its mutable state. -/
def Store := Nat → VarState

/-- Write the usable flag of one variable. -/
def setUsable (st : Store) (v : Nat) (b : Bool) : Store :=
  fun w => if w == v then { st w with usable := b } else st w

/-- Write the collapses set of one variable. -/
def setCollapses (st : Store) (v : Nat) (c : List Nat) : Store :=
  fun w => if w == v then { st w with collapses := c } else st w

/-- A left-hand-side node of a short variable declaration or assignment:
a missing expression (the hole after the separator), an identifier, or a
non-identifier expression. -/
inductive LhsNode where
  | nilNode
  | identE (name : String)
  | nonIdent
  deriving DecidableEq, Repr

/-- The left-hand-side collection loop of shortVarDecl: walks the
left-hand nodes, resolving identifiers against the current scope
(redeclaration) or allocating new variable objects (fresh identities
freshBase plus position), with dummies for non-identifiers; the node at
EntangledPos minus one becomes the entangled variable, a missing
entangled node stops the walk.  Returns the non-tail variables, the
entangled variable, and the newly declared variables. -/
def collectLhs (scope : String → Option Nat) (freshBase : Nat)
    (lhs : List LhsNode) (entangledPos : Nat) : List Nat × Option Nat × List Nat :=
  go 0 lhs [] none []
where
  go (i : Nat) (rest : List LhsNode) (lhsVars : List Nat) (ent : Option Nat)
      (newVars : List Nat) : List Nat × Option Nat × List Nat :=
    match rest with
    | [] => (lhsVars.reverse, ent, newVars.reverse)
    | node :: rest =>
      let isEnt := entangledPos > 0 && i == entangledPos - 1
      if isEnt && node == .nilNode then
        (lhsVars.reverse, ent, newVars.reverse)
      else
        let (obj, newVars) :=
          match node with
          | .identE name =>
            match scope name with
            | some v => (v, newVars)
            | none =>
              if name == "_" then (freshBase + i, newVars)
              else (freshBase + i, (freshBase + i) :: newVars)
          | _ => (freshBase + i, newVars)
        if isEnt then go (i + 1) rest lhsVars (some obj) newVars
        else go (i + 1) rest (obj :: lhsVars) ent newVars

/-- The marking applied after an entangled binding (the closing lines of
shortVarDecl and of the entangled branch of assignVars): the entangled
variable's collapses set becomes the non-tail variables, and every
non-tail variable's usable flag is cleared. -/
def entangleMark (st : Store) (lhsVars : List Nat) (tail : Nat) : Store :=
  lhsVars.foldl (fun s v => setUsable s v false) (setCollapses st tail lhsVars)

/-- shortVarDecl: collect the left-hand variables, run initVars (modelled
as an arbitrary store effect, since its own checks do not touch the
entangled marking), declare the new variables, then, when an entangled
variable is present, apply the entangled marking. -/
def shortVarDecl (scope : String → Option Nat) (freshBase : Nat) (st : Store)
    (lhs : List LhsNode) (entangledPos : Nat) (initVarsEff : Store → Store) : Store :=
  let c := collectLhs scope freshBase lhs entangledPos
  let st1 := initVarsEff st
  match c.2.1 with
  | some t => entangleMark st1 c.1 t
  | none => st1

/-- The left-hand-side collection loop of assignVars: identifiers resolve
against the scope only (no declaration), non-identifiers are remembered;
dummies are allocated for unresolved nodes.  Returns the non-tail
variables, the entangled variable, and whether a non-identifier
left-hand node was seen. -/
def collectAssignLhs (scope : String → Option Nat) (freshBase : Nat)
    (lhs : List LhsNode) (entangledPos : Nat) : List Nat × Option Nat × Bool :=
  go 0 lhs [] none false
where
  go (i : Nat) (rest : List LhsNode) (lhsVars : List Nat) (ent : Option Nat)
      (nonIdent : Bool) : List Nat × Option Nat × Bool :=
    match rest with
    | [] => (lhsVars.reverse, ent, nonIdent)
    | node :: rest =>
      let isEnt := entangledPos > 0 && i == entangledPos - 1
      if isEnt && node == .nilNode then
        (lhsVars.reverse, ent, nonIdent)
      else
        let (obj, nonIdent) :=
          match node with
          | .identE name =>
            match scope name with
            | some v => (v, nonIdent)
            | none => (freshBase + i, nonIdent)
          | .nonIdent => (freshBase + i, true)
          | .nilNode => (freshBase + i, nonIdent)
        if isEnt then go (i + 1) rest lhsVars (some obj) nonIdent
        else go (i + 1) rest (obj :: lhsVars) ent nonIdent

/-- assignVars: when the left-hand side is entangled and all its nodes
are identifiers, run checkVars (store effect abstracted) and apply the
entangled marking; a non-identifier node only reports an error; the
non-entangled path runs the plain per-element assignment (store effect
abstracted as plainEff). -/
def assignVarsStmt (scope : String → Option Nat) (freshBase : Nat) (st : Store)
    (lhs : List LhsNode) (entangledPos : Nat)
    (checkVarsEff plainEff : Store → Store) : Store :=
  let c := collectAssignLhs scope freshBase lhs entangledPos
  match c.2.1 with
  | some t =>
    if c.2.2 then st
    else entangleMark (checkVarsEff st) c.1 t
  | none => plainEff st

/-! ## C9: assignVar sets the usable flag before validating -/

/-- A variable's flags as touched by assignVar: the usable flag and the
used flag (whose value assignVar saves and restores around evaluating
the left-hand side). -/
structure Var9 where
  usable : Bool
  used : Bool
  deriving Repr

/-- A left-hand-side expression of a single assignment, as far as
assignVar discriminates it: an identifier, a parenthesized expression, or
anything else. -/
inductive LhsE where
  | identE (name : String)
  | parenE (e : LhsE)
  | otherE
  deriving Repr

/-- unparen: strip parentheses. -/
def unparen : LhsE → LhsE
  | .parenE e => unparen e
  | e => e

/-- assignVar: the single-assignment checker.  Given the scope's
LookupParent resolution, the store, the left-hand expression, the
evaluated right-hand operand, and the externally determined outcomes of
the base checks (whether the evaluated left-hand operand is invalid, its
mode, and whether the assignability check succeeds), it returns the
updated store and whether the assignment succeeded.  When the left-hand
side is a non-blank identifier naming a variable, the variable's usable
flag is set before the left-hand side is evaluated and validated, and no
failure path restores it; the used flag is saved and restored. -/
def assignVar9 (scopeParent : String → Option Nat) (st : Nat → Var9)
    (lhs : LhsE) (x : Operand) (xTypInvalid : Bool)
    (zInvalid : Bool) (zMode : Mode) (assignOk : Bool) : (Nat → Var9) × Bool :=
  if x.mode == .invalid || xTypInvalid then (st, false)
  else
    match unparen lhs with
    | .identE name =>
      if name == "_" then (st, assignOk)
      else
        let st1 :=
          match scopeParent name with
          | some v => fun w => if w == v then { st w with usable := true } else st w
          | none => st
        if zInvalid then (st1, false)
        else
          match zMode with
          | .variable_ => if assignOk then (st1, true) else (st1, false)
          | .mapindex => if assignOk then (st1, true) else (st1, false)
          | _ => (st1, false)
    | _ =>
      if zInvalid then (st, false)
      else
        match zMode with
        | .variable_ => if assignOk then (st, true) else (st, false)
        | .mapindex => if assignOk then (st, true) else (st, false)
        | _ => (st, false)

/-! ## C4, C5: optionable paths (lookup.go, findOptionables2) -/

/-- One step of an OptionablePath.  The source's OptionablePathStep is a
record of the type stepped on together with Key, Field and Param numbers;
the constructors here are in bijection with the distinct step shapes the
source builds: stepping to a pointer's pointee, a map's key or value, a
slice, array or channel element, a struct field, a signature's parameter
or result, and an interface method's parameter or result. -/
inductive Step where
  | pointee
  | mapKey
  | mapValue
  | sliceElem
  | arrayElem
  | chanElem
  | structField (i : Nat)
  | sigParam (i : Nat)
  | sigResult (i : Nat)
  | ifaceParam (m i : Nat)
  | ifaceResult (m i : Nat)
  deriving DecidableEq, Repr

mutual

/-- findOptionables2 (lookup.go, lines 410 to 471).  Walks the type,
emitting one entry per optionable position: the path to the position
paired with true when the position goes to the checkable sequence and
false when it goes to the uncheckable one (the source redirects appends
through the allUncheckable flag; the wrapped flag suppresses the append
for a position directly below an Optional).  Key and value of a map,
elements of slices, arrays and channels, and parameters and results of
signatures and interface methods are explored with allUncheckable set;
pointer elements and struct fields inherit the caller's flag; named
types are emitted by their underlying's optionability and not entered;
Optional is entered with wrapped set and an unchanged path. -/
def findOptionables2 (T : GoType) (path : List Step) (aU wrapped : Bool) :
    List (List Step × Bool) :=
  match T with
  | .pointer elem =>
    (if wrapped then [] else [(path, !aU)])
      ++ findOptionables2 elem (path ++ [.pointee]) aU false
  | .mapT k v =>
    (if wrapped then [] else [(path, !aU)])
      ++ findOptionables2 k (path ++ [.mapKey]) true false
      ++ findOptionables2 v (path ++ [.mapValue]) true false
  | .sig _ ps rs =>
    (if wrapped then [] else [(path, !aU)])
      ++ findOptList (fun i => path ++ [.sigParam i]) ps 0
      ++ findOptList (fun i => path ++ [.sigResult i]) rs 0
  | .iface ms =>
    (if wrapped then [] else [(path, !aU)])
      ++ findOptIface path ms 0
  | .slice elem => findOptionables2 elem (path ++ [.sliceElem]) true false
  | .array elem => findOptionables2 elem (path ++ [.arrayElem]) true false
  | .chan elem =>
    (if wrapped then [] else [(path, !aU)])
      ++ findOptionables2 elem (path ++ [.chanElem]) true false
  | .structT fs => findOptFields (fun i => path ++ [.structField i]) fs 0 aU
  | .named _ _ u =>
    if !wrapped && IsOptionable u then [(path, !aU)] else []
  | .optional e => findOptionables2 e path aU true
  | .basic _ => []
  | .tuple _ _ => []
termination_by sizeOf T

/-- The loop over a signature's parameter or result types inside
findOptionables2: each element type is explored with allUncheckable set,
under the path extended with its index. -/
def findOptList (mk : Nat → List Step) (ts : List GoType) (i : Nat) :
    List (List Step × Bool) :=
  match ts with
  | [] => []
  | t :: rest => findOptionables2 t (mk i) true false ++ findOptList mk rest (i + 1)
termination_by sizeOf ts

/-- The loop over a struct's fields inside findOptionables2: each field
type is explored under the caller's allUncheckable flag, under the path
extended with the field index. -/
def findOptFields (mk : Nat → List Step) (fs : List (String × Bool × GoType))
    (i : Nat) (aU : Bool) : List (List Step × Bool) :=
  match fs with
  | [] => []
  | (_, _, t) :: rest =>
    findOptionables2 t (mk i) aU false ++ findOptFields mk rest (i + 1) aU
termination_by sizeOf fs

/-- The loop over an interface's methods inside findOptionables2: each
method's signature contributes its parameter and result types, explored
with allUncheckable set, under paths extended with the method and
parameter or result indices. -/
def findOptIface (path : List Step) (ms : List (String × GoType)) (mi : Nat) :
    List (List Step × Bool) :=
  match ms with
  | [] => []
  | (_, .sig _ ps rs) :: rest =>
    findOptList (fun i => path ++ [.ifaceParam mi i]) ps 0
      ++ findOptList (fun i => path ++ [.ifaceResult mi i]) rs 0
      ++ findOptIface path rest (mi + 1)
  | _ :: rest => findOptIface path rest (mi + 1)
termination_by sizeOf ms

end

/-- FindOptionables (lookup.go, lines 405 to 408): the checkable and the
uncheckable optionable paths of a type. -/
def FindOptionables (T : GoType) : List (List Step) × List (List Step) :=
  let l := findOptionables2 T [] false false
  (l.filterMap (fun pb => if pb.2 then some pb.1 else none),
   l.filterMap (fun pb => if pb.2 then none else some pb.1))

/-- assertableTo (lookup.go, lines 322 to 335).  The outcome of the
method-set machinery (MissingMethod over the asserted-from interface) is
abstracted as a parameter so that its irrelevance on the early-return
path is expressible; strict is the package-level strict flag.  Returns
the missing method with its wrong-type flag, and the paths that need an
optional (the uncheckable paths of T). -/
def assertableTo (missingMethod : Option (String × Bool)) (strict : Bool)
    (T : GoType) : Option String × Bool × List (List Step) :=
  let needsOptional := (FindOptionables T).2
  if needsOptional.length > 0 then (none, false, needsOptional)
  else
    match T.underlying with
    | .iface _ =>
      if !strict then (none, false, needsOptional)
      else
        match missingMethod with
        | some mwt => (some mwt.1, mwt.2, needsOptional)
        | none => (none, false, needsOptional)
    | _ =>
      match missingMethod with
      | some mwt => (some mwt.1, mwt.2, needsOptional)
      | none => (none, false, needsOptional)

/-- Modelled from the spec: the checker's type-assertion handling (the
caller of assertableTo in the expression checker, not under src/)
rejects the assertion when assertableTo reports unchecked optionable
paths (diagnostic AssertionHasUncheckablePath) or a missing method. -/
def assertionRejected (missingMethod : Option (String × Bool)) (strict : Bool)
    (T : GoType) : Bool :=
  let r := assertableTo missingMethod strict T
  r.2.2.length > 0 || r.1.isSome

/-! ### Declarative characterization of the optionable-path classes -/

/-- Whether a step keeps a position inspectable on the dynamic value:
only pointer dereference and struct field selection do. -/
def stepChk : Step → Bool
  | .pointee => true
  | .structField _ => true
  | _ => false

/-- Strip directly nested Optional wrappers. -/
def stripOpts : GoType → GoType
  | .optional e => stripOpts e
  | t => t

/-- The type found at a path into a type, together with whether the final
position is directly wrapped in an Optional.  Optional wrappers are
transparent along the way; named types are opaque (no step applies to
them), matching the traversal of findOptionables2. -/
def typeAt (T : GoType) : List Step → Option (GoType × Bool)
  | [] =>
    match T with
    | .optional e => some (e, true)
    | t => some (t, false)
  | s :: r =>
    match stripOpts T, s with
    | .pointer e, .pointee => typeAt e r
    | .mapT k _, .mapKey => typeAt k r
    | .mapT _ v, .mapValue => typeAt v r
    | .slice e, .sliceElem => typeAt e r
    | .array e, .arrayElem => typeAt e r
    | .chan e, .chanElem => typeAt e r
    | .structT fs, .structField i =>
      match fs[i]? with
      | some f => typeAt f.2.2 r
      | none => none
    | .sig _ ps _, .sigParam i =>
      match ps[i]? with
      | some t => typeAt t r
      | none => none
    | .sig _ _ rs, .sigResult i =>
      match rs[i]? with
      | some t => typeAt t r
      | none => none
    | .iface ms, .ifaceParam mi i =>
      match ms[mi]? with
      | some (_, .sig _ ps _) =>
        match ps[i]? with
        | some t => typeAt t r
        | none => none
      | _ => none
    | .iface ms, .ifaceResult mi i =>
      match ms[mi]? with
      | some (_, .sig _ _ rs) =>
        match rs[i]? with
        | some t => typeAt t r
        | none => none
      | _ => none
    | _, _ => none

/-- Whether the type at a position is one findOptionables2 emits: a
pointer, map, channel, function or interface, or a named type with
optionable underlying. -/
def posOptionable : GoType → Bool
  | .pointer _ => true
  | .mapT _ _ => true
  | .chan _ => true
  | .sig _ _ _ => true
  | .iface _ => true
  | .named _ _ u => IsOptionable u
  | _ => false

/-- Declarative checkable class: an optionable position, not directly
wrapped in an Optional, every step of whose path is a pointer dereference
or a struct field selection (so the runtime reaches it on the dynamic
value); named types are classified atomically. -/
def specCheckablePos (T : GoType) (p : List Step) : Bool :=
  match typeAt T p with
  | some (Q, false) => posOptionable Q && p.all stepChk
  | _ => false

/-- Declarative unchecked class: an optionable position, not directly
wrapped in an Optional, whose path crosses at least one step the runtime
cannot follow (a slice, array, map or channel element, a map key, or a
parameter or result of a signature or interface method). -/
def specUncheckedPos (T : GoType) (p : List Step) : Bool :=
  match typeAt T p with
  | some (Q, false) => posOptionable Q && !(p.all stepChk)
  | _ => false

/-- Strip named wrappers and Optional wrappers, for the claim-literal
dynamic-value view of a type. -/
def stripNO : GoType → GoType
  | .named _ _ u => stripNO u
  | .optional e => stripNO e
  | t => t

/-- The type found at a path when named types are transparent (the view
in which a named pointer is a pointer), as the claim's wording describes
positions reachable through the dynamic value. -/
def typeAtN (T : GoType) : List Step → Option (GoType × Bool)
  | [] =>
    match T with
    | .optional e => some (e, true)
    | t => some (t, false)
  | s :: r =>
    match stripNO T, s with
    | .pointer e, .pointee => typeAtN e r
    | .mapT k _, .mapKey => typeAtN k r
    | .mapT _ v, .mapValue => typeAtN v r
    | .slice e, .sliceElem => typeAtN e r
    | .array e, .arrayElem => typeAtN e r
    | .chan e, .chanElem => typeAtN e r
    | .structT fs, .structField i =>
      match fs[i]? with
      | some f => typeAtN f.2.2 r
      | none => none
    | .sig _ ps _, .sigParam i =>
      match ps[i]? with
      | some t => typeAtN t r
      | none => none
    | .sig _ _ rs, .sigResult i =>
      match rs[i]? with
      | some t => typeAtN t r
      | none => none
    | .iface ms, .ifaceParam mi i =>
      match ms[mi]? with
      | some (_, .sig _ ps _) =>
        match ps[i]? with
        | some t => typeAtN t r
        | none => none
      | _ => none
    | .iface ms, .ifaceResult mi i =>
      match ms[mi]? with
      | some (_, .sig _ _ rs) =>
        match rs[i]? with
        | some t => typeAtN t r
        | none => none
      | _ => none
    | _, _ => none

/-- The claim's literal checkable class: an optionable position of the
type, reached from a root that is itself of optionable kind through
pointer dereferences and struct field selections only, with named types
transparent (a named pointer is a pointer and its pointee is reachable
through the dynamic value, transitively). -/
def claimCheckableLit (T : GoType) (p : List Step) : Bool :=
  (match typeAtN T p with
   | some (Q, false) => IsOptionable Q
   | _ => false)
    && p.all stepChk && IsOptionable T

/-! ## C3: field and method lookup (lookup.go) -/

/-- deref (lookup.go, lines 475 to 480): dereference a pointer type. -/
def deref : GoType → GoType × Bool
  | .pointer b => (b, true)
  | t => (t, false)

/-- deopt (lookup.go, lines 484 to 489): unwrap an optional type. -/
def deopt : GoType → GoType × Bool
  | .optional e => (e, true)
  | t => (t, false)

/-- Modelled from the spec: isOptional, the unexported optional-type test
of the types package (its defining file is not under src/; its caller in
lookup.go is): whether the type is an Optional. -/
def isOptional : GoType → Bool
  | .optional _ => true
  | _ => false

/-- The receiver of a signature type. -/
def sigRecv : GoType → Option GoType
  | .sig recv _ _ => recv
  | _ => none

/-- Modelled from the spec: optRecv, the method-set machinery's test (not
under src/) for a method whose declared receiver type is optional. -/
def optRecv (ftyp : GoType) : Bool :=
  match sigRecv ftyp with
  | some r => isOptional r
  | none => false

/-- Modelled from the spec: ptrRecv, the method-set machinery's test (not
under src/) for a method whose declared receiver type is a pointer. -/
def ptrRecv (ftyp : GoType) : Bool :=
  match sigRecv ftyp with
  | some (.pointer _) => true
  | _ => false

/-- Modelled from the spec: IsInterface, the interface-kind predicate of
the types package (its defining file is not under src/): a type whose
underlying type is an interface. -/
def IsInterface (t : GoType) : Bool :=
  match t.underlying with
  | .iface _ => true
  | _ => false

mutual

/-- Modelled from the spec: Identical, the type-identity predicate of the
types package (predicates.go, not under src/): structural identity, with
named types identical by object identity, signatures compared by their
parameter and result types, and struct fields by name, anonymity and
type.  Package-qualification of unexported names is not modelled. -/
def identical : GoType → GoType → Bool
  | .basic k, .basic k2 => k == k2
  | .pointer a, .pointer b => identical a b
  | .slice a, .slice b => identical a b
  | .array a, .array b => identical a b
  | .mapT k v, .mapT k2 v2 => identical k k2 && identical v v2
  | .chan a, .chan b => identical a b
  | .sig _ ps rs, .sig _ ps2 rs2 => identicalList ps ps2 && identicalList rs rs2
  | .iface ms, .iface ms2 => identicalMethods ms ms2
  | .structT fs, .structT fs2 => identicalFields fs fs2
  | .named i _ _, .named j _ _ => i == j
  | .optional a, .optional b => identical a b
  | .tuple es t, .tuple es2 t2 =>
    identicalList es es2
      && (match t, t2 with
          | some a, some b => identical a b
          | none, none => true
          | _, _ => false)
  | _, _ => false
termination_by a b => (sizeOf a, sizeOf b)

/-- Pointwise identity of type lists. -/
def identicalList : List GoType → List GoType → Bool
  | [], [] => true
  | a :: as_, b :: bs => identical a b && identicalList as_ bs
  | _, _ => false
termination_by a b => (sizeOf a, sizeOf b)

/-- Pointwise identity of method lists. -/
def identicalMethods : List (String × GoType) → List (String × GoType) → Bool
  | [], [] => true
  | (n, t) :: as_, (n2, t2) :: bs => n == n2 && identical t t2 && identicalMethods as_ bs
  | _, _ => false
termination_by a b => (sizeOf a, sizeOf b)

/-- Pointwise identity of struct field lists. -/
def identicalFields :
    List (String × Bool × GoType) → List (String × Bool × GoType) → Bool
  | [], [] => true
  | (n, an, t) :: as_, (n2, an2, t2) :: bs =>
    n == n2 && an == an2 && identical t t2 && identicalFields as_ bs
  | _, _ => false
termination_by a b => (sizeOf a, sizeOf b)

end

/-- An entry of the lookup worklist (the embeddedType struct of
lookup.go): the type, the embedded field indices leading to it, whether a
pointer indirection occurred on the way, whether it sits under an
optional wrapper, and whether it occurs multiple times at this depth. -/
structure EmbeddedType where
  typ : GoType
  index : List Nat
  indirect : Bool
  opt : Bool
  multiples : Bool

/-- consolidateMultiples (lookup.go, lines 233 to 251): collapse worklist
entries of identical type into one entry marked as containing multiples. -/
def consolidateMultiples (list : List EmbeddedType) : List EmbeddedType :=
  if list.length ≤ 1 then list
  else go list []
where
  go : List EmbeddedType → List EmbeddedType → List EmbeddedType
  | [], acc => acc.reverse
  | e :: rest, acc =>
    if acc.any (fun a => identical a.typ e.typ) then
      go rest (acc.map (fun a =>
        if identical a.typ e.typ then { a with multiples := true } else a))
    else
      go rest (e :: acc)

/-- lookupMethod (lookup.go, lines 523 to 532): index and method with
matching name (package qualification not modelled), never the blank
name. -/
def lookupMethod (methods : List (String × GoType)) (name : String) :
    Option (Nat × String × GoType) :=
  if name == "_" then none
  else
    (methods.enum.find? (fun im => im.2.1 == name)).map
      (fun im => (im.1, im.2.1, im.2.2))

/-- The object returned by a lookup: nothing, a struct field, or a
method.  A method carries its name and its signature type. -/
inductive LookupObj where
  | nothing
  | fieldO (name : String) (typ : GoType)
  | methodO (name : String) (typ : GoType)
  deriving Repr

/-- A lookup result: the object, the index sequence, and the indirection
flag, as returned by lookupFieldOrMethod. -/
structure LookupRes where
  obj : LookupObj
  index : List Nat
  indirect : Bool
  deriving Repr

/-- The mutable state of one depth scan inside lookupFieldOrMethod: the
seen named types, the current potential match with its index sequence and
indirection flag, and the embedded types collected for the next depth. -/
structure ScanSt where
  seen : List Nat
  obj : LookupObj
  index : List Nat
  indirect : Bool
  next : List EmbeddedType

/-- The struct-field inner loop of lookupFieldOrMethod (lookup.go, lines
145 to 175): match fields against the name unless the whole lookup is on
an optional (the isOpt flag of the outer function), collect anonymous
fields for the next depth while no match is known.  The source's
collection derefs the field type but keeps the optional wrapper (its
deopt result is shadowed), which is reproduced here.  An early collision
return surfaces as Except.error. -/
def scanFields (isOpt : Bool) (name : String) (e : EmbeddedType)
    (fs : List (String × Bool × GoType)) (st : ScanSt) : Except LookupRes ScanSt :=
  go 0 fs st
where
  go (i : Nat) : List (String × Bool × GoType) → ScanSt → Except LookupRes ScanSt
  | [], st => .ok st
  | (fname, fanon, ftyp) :: rest, st =>
    if !isOpt && fname == name then
      let index := e.index ++ [i]
      match st.obj with
      | .nothing =>
        if e.multiples then .error ⟨.nothing, index, false⟩
        else go (i + 1) rest { st with obj := .fieldO fname ftyp, index := index,
                                       indirect := e.indirect }
      | _ => .error ⟨.nothing, index, false⟩
    else
      match st.obj with
      | .nothing =>
        if fanon then
          let isOptF := (deopt ftyp).2
          let d := deref ftyp
          go (i + 1) rest { st with next := st.next ++
            [⟨d.1, e.index ++ [i], e.indirect || d.2, isOptF, e.multiples⟩] }
        else go (i + 1) rest st
      | _ => go (i + 1) rest st

/-- Scan one worklist entry inside a depth of lookupFieldOrMethod
(lookup.go, lines 105 to 190): named types first look up an attached
method, skipping methods without optional receiver when the entry sits
under an optional, then continue with the underlying type; structs match
fields and collect embedded ones; interfaces match their method set.
Collisions return early through Except.error. -/
def scanEntry (isOpt : Bool) (name : String) (st : ScanSt) (e : EmbeddedType) :
    Except LookupRes ScanSt :=
  match e.typ with
  | .named id ms u =>
    if st.seen.contains id then .ok st
    else
      let st := { st with seen := id :: st.seen }
      match lookupMethod ms name with
      | some (i, mname, mtyp) =>
        let index := e.index ++ [i]
        match st.obj with
        | .nothing =>
          if e.multiples then .error ⟨.nothing, index, false⟩
          else if e.opt && !(match sigRecv mtyp with
                             | some r => isOptional r
                             | none => false) then
            .ok { st with index := index }
          else
            .ok { st with obj := .methodO mname mtyp, index := index,
                          indirect := e.indirect }
        | _ => .error ⟨.nothing, index, false⟩
      | none => scanUnderlying isOpt name { e with typ := u } u st
  | t => scanUnderlying isOpt name e t st
where
  scanUnderlying (isOpt : Bool) (name : String) (e : EmbeddedType) (t : GoType)
      (st : ScanSt) : Except LookupRes ScanSt :=
    match t with
    | .structT fs => scanFields isOpt name e fs st
    | .iface ms =>
      match lookupMethod ms name with
      | some (i, mname, mtyp) =>
        let index := e.index ++ [i]
        match st.obj with
        | .nothing =>
          if e.multiples then .error ⟨.nothing, index, false⟩
          else .ok { st with obj := .methodO mname mtyp, index := index,
                             indirect := e.indirect }
        | _ => .error ⟨.nothing, index, false⟩
      | none => .ok st
    | _ => .ok st

/-- The final receiver check of lookupFieldOrMethod (lookup.go, lines 192
to 213) once a potential match is found: a method with an optional
receiver is checked for a pointer under the optional; otherwise an
optional lookup requires an optional receiver; otherwise the plain
pointer-receiver rule applies, requiring an indirection or
addressability. -/
def finishLookup (isOpt addressable : Bool) (obj : LookupObj) (index : List Nat)
    (indirect : Bool) : LookupRes :=
  match obj with
  | .methodO _ ftyp =>
    if optRecv ftyp then
      let unwrapped :=
        match sigRecv ftyp with
        | some r => (deopt r).1
        | none => ftyp
      let isPtrRecv := match unwrapped with | .pointer _ => true | _ => false
      if isPtrRecv && !indirect && !addressable then ⟨.nothing, [], true⟩
      else ⟨obj, index, indirect⟩
    else if isOpt then ⟨.nothing, [], true⟩
    else if ptrRecv ftyp && !indirect && !addressable then ⟨.nothing, [], true⟩
    else ⟨obj, index, indirect⟩
  | _ => ⟨obj, index, indirect⟩

/-- The depth loop of lookupFieldOrMethod: scan all entries of the
current depth, finish if a match was found, otherwise continue with the
consolidated next depth.  The worklist shrinks only on finite type
trees, so the depth loop carries fuel; exhausted fuel reports not
found. -/
def lookupLoop (isOpt addressable : Bool) (name : String) :
    Nat → List Nat → List EmbeddedType → LookupRes
  | 0, _, _ => ⟨.nothing, [], false⟩
  | fuel + 1, seen, current =>
    if current.isEmpty then ⟨.nothing, [], false⟩
    else
      match current.foldlM (scanEntry isOpt name)
          (⟨seen, .nothing, [], false, []⟩ : ScanSt) with
      | .error r => r
      | .ok st =>
        match st.obj with
        | .nothing => lookupLoop isOpt addressable name fuel st.seen
            (consolidateMultiples st.next)
        | _ => finishLookup isOpt addressable st.obj st.index st.indirect

/-- lookupFieldOrMethod (lookup.go, lines 72 to 219): strip one optional
and one pointer wrapper, reject pointers to interfaces, then run the
depth loop from the single starting entry. -/
def lookupFieldOrMethodF (fuel : Nat) (T : GoType) (addressable : Bool)
    (name : String) : LookupRes :=
  if name == "_" then ⟨.nothing, [], false⟩
  else
    let d0 := deopt T
    let isOpt := d0.2
    let d1 := deref d0.1
    let typ := d1.1
    let isPtr := d1.2
    if isPtr && IsInterface typ then ⟨.nothing, [], false⟩
    else lookupLoop isOpt addressable name fuel [] [⟨typ, [], isPtr, isOpt, false⟩]

/-- LookupFieldOrMethod (lookup.go, lines 40 to 65): for a named type
whose underlying (after unwrapping an optional) is a pointer, look up on
the pointer type and discard method results; otherwise the plain
lookup. -/
def LookupFieldOrMethod (fuel : Nat) (T : GoType) (addressable : Bool)
    (name : String) : LookupRes :=
  match T with
  | .named _ _ u =>
    let t : GoType := match u with | .optional e => e | _ => T
    match t.underlying with
    | .pointer pe =>
      let r := lookupFieldOrMethodF fuel (.pointer pe) false name
      match r.obj with
      | .methodO _ _ => ⟨.nothing, [], false⟩
      | _ => r
    | _ => lookupFieldOrMethodF fuel T addressable name
  | _ => lookupFieldOrMethodF fuel T addressable name

/-! ## C10: the side-car annotation grammar (annotations package) -/

/-- Go's unicode.IsSpace over the Latin-1 range, which covers every
character the annotation grammar treats as white space. -/
def goIsSpace (c : Char) : Bool :=
  c == ' ' || c == '\t' || c == '\n' || c == Char.ofNat 11 || c == Char.ofNat 12
    || c == '\r' || c == Char.ofNat 0x85 || c == Char.ofNat 0xA0

/-- Go's unicode.IsLetter, modelled over ASCII letters (the identifiers
of the claims are ASCII). -/
def goIsLetter (c : Char) : Bool := c.isAlpha

/-- Go's unicode.IsDigit, modelled over ASCII digits. -/
def goIsDigit (c : Char) : Bool := c.isDigit

/-- Go's strings.TrimSpace: drop white space from both ends. -/
def trimGo (s : String) : String :=
  String.mk (((s.toList.dropWhile goIsSpace).reverse.dropWhile goIsSpace).reverse)

/-- The tokenizer state is the remaining rune sequence; SkipWhite drops
leading white space. -/
def skipWhite (l : List Char) : List Char := l.dropWhile goIsSpace

/-- SkipWhiteUntilLine: drop leading white space but stop at a line
break. -/
def skipWhiteUntilLine (l : List Char) : List Char :=
  l.dropWhile (fun c => goIsSpace c && c != '\n')

/-- expect: consume exactly the given rune. -/
def expectTok (r : Char) : List Char → Option (List Char)
  | [] => none
  | c :: rest => if c == r then some rest else none

/-- parseIdent: consume one rune unconditionally, then letters and
digits; reaching the end of input inside the loop is an error, as in the
source (Peek's io.EOF is propagated). -/
def parseIdent (l : List Char) : Option (String × List Char) :=
  match l with
  | [] => none
  | c :: rest => go (String.singleton c) rest
where
  go (acc : String) : List Char → Option (String × List Char)
  | [] => none
  | c :: rest =>
    if goIsLetter c || goIsDigit c then go (acc.push c) rest
    else some (acc, c :: rest)

/-- parseReceiver: an opening parenthesis (already peeked), a star, an
identifier and a closing parenthesis, with white space allowed between
the tokens; yields the receiver name in its printed form. -/
def parseReceiver (l : List Char) : Option (String × List Char) :=
  match l with
  | [] => none
  | _ :: rest =>
    match expectTok '*' (skipWhite rest) with
    | none => none
    | some l2 =>
      match parseIdent (skipWhite l2) with
      | none => none
      | some (id, l3) =>
        match expectTok ')' (skipWhite l3) with
        | none => none
        | some l4 => some ("(*" ++ id ++ ")", l4)

/-- parseName: a receiver when the next rune is an opening parenthesis,
an identifier when it is an underscore or letter, an error otherwise. -/
def parseName (l : List Char) : Option (String × List Char) :=
  match l with
  | [] => none
  | c :: _ =>
    if c == '(' then parseReceiver l
    else if c == '_' || goIsLetter c then parseIdent l
    else none

/-- parseType: any text up to (but not consuming) a newline, a semicolon
or the end of input, not beginning with an opening brace, a newline or a
semicolon; the collected text is trimmed of surrounding white space. -/
def parseType (l : List Char) : Option (String × List Char) :=
  match l with
  | [] => none
  | c :: rest =>
    if c == '\x7b' || c == '\n' || c == ';' then none
    else
      let took := rest.takeWhile (fun d => !(d == '\n' || d == ';'))
      some (trimGo (String.mk (c :: took)), rest.drop took.length)

/-- Insert-or-overwrite into an association-list map, the map semantics
of the annotation tables. -/
def mput (m : List (String × String)) (k v : String) : List (String × String) :=
  if m.any (fun e => e.1 == k) then
    m.map (fun e => if e.1 == k then (k, v) else e)
  else m ++ [(k, v)]

/-- Map lookup in an association-list map. -/
def mget (m : List (String × String)) (k : String) : Option String :=
  (m.find? (fun e => e.1 == k)).map (·.2)

mutual

/-- parseList: items while the next non-white rune starts a name (an
opening parenthesis, underscore or letter); each item's bindings
overwrite earlier ones; trailing unconsumed input is not an error.  The
fuel bounds the recursion; Parse supplies enough for its input. -/
def parseList (fuel : Nat) (l : List Char) :
    Option (List (String × String) × List Char) :=
  match fuel with
  | 0 => none
  | fuel + 1 =>
    let l := skipWhite l
    match l with
    | [] => some ([], [])
    | c :: _ =>
      if !(c == '(' || c == '_' || goIsLetter c) then some ([], l)
      else
        match parseItem fuel l with
        | none => none
        | some (item, rest) =>
          match parseList fuel rest with
          | none => none
          | some (anns, rest2) =>
            some (anns.foldl (fun m kv => mput m kv.1 kv.2) item, rest2)

/-- parseItem: a name, its definition, then a newline, a semicolon or the
end of input; a braced definition's bindings are re-keyed by joining the
item name and the sub-item name with a dot, a type definition is keyed by
the item name alone. -/
def parseItem (fuel : Nat) (l : List Char) :
    Option (List (String × String) × List Char) :=
  match fuel with
  | 0 => none
  | fuel + 1 =>
    match parseName l with
    | none => none
    | some (name, l1) =>
      match parseDef fuel (skipWhiteUntilLine l1) with
      | none => none
      | some (d, l2) =>
        let l3 := skipWhiteUntilLine l2
        match l3 with
        | [] =>
          some (d.map (fun kv =>
            (if kv.1 == "" then name else name ++ "." ++ kv.1, kv.2)), [])
        | c :: rest =>
          if c == ';' || c == '\n' then
            some (d.map (fun kv =>
              (if kv.1 == "" then name else name ++ "." ++ kv.1, kv.2)), rest)
          else none

/-- parseDef: a braced sub-list, or a type text keyed by the empty
sub-item name. -/
def parseDef (fuel : Nat) (l : List Char) :
    Option (List (String × String) × List Char) :=
  match fuel with
  | 0 => none
  | fuel + 1 =>
    match l with
    | [] => none
    | c :: rest =>
      if c == '\x7b' then
        match parseList fuel (skipWhite rest) with
        | none => none
        | some (anns, l2) =>
          match expectTok '\x7d' (skipWhite l2) with
          | none => none
          | some l3 => some (anns, l3)
      else
        match parseType l with
        | none => none
        | some (t, l2) => some ([("", t)], l2)

end

/-- An Annotation value of the annotations package: the cursor (the
dotted name navigated so far), the type text (the empty string standing
for none, as in the source), and the binding table (None modelling the
nil map). -/
structure AnnRec where
  cursor : String
  typ : String
  anns : Option (List (String × String))
  deriving Repr

/-- A possibly nil Annotation pointer. -/
abbrev Ann := Option AnnRec

/-- Parse (parse.go, lines 12 to 15): parse a side-car source into an
Annotation; a parse failure yields the nil Annotation (NewAnnotation of
the nil map) and the error flag. -/
def ParseAnn (s : String) : Ann × Bool :=
  match parseList (2 * s.length + 4) s.toList with
  | some (m, _) => (some ⟨"", "", some m⟩, false)
  | none => (none, true)

/-- Lookup (annotations.go, lines 43 to 56): extend the cursor with the
name; a table hit yields a type annotation (with a nil table), a miss
yields a cursor annotation over the same table; nil receivers and nil
tables yield nil. -/
def annLookup (a : Ann) (name : String) : Ann :=
  match a with
  | none => none
  | some r =>
    match r.anns with
    | none => none
    | some m =>
      let cursor := if r.cursor == "" then name else r.cursor ++ "." ++ name
      match mget m cursor with
      | some v => some ⟨"", v, none⟩
      | none => some ⟨cursor, "", some m⟩

/-- Type (annotations.go, lines 25 to 30): the type text when present;
the empty text and the nil receiver yield none. -/
def annType (a : Ann) : Option String :=
  match a with
  | none => none
  | some r => if r.typ == "" then none else some r.typ

/-! ## C8: the importer's AST conversion (convertast.go) -/

mutual

/-- An imported base-language type expression, as far as convertAST
discriminates it.  An identifier carries whether it resolves (through
info.Uses) to a type name of optionable type. -/
inductive AExpr where
  | ident (name : String) (optionable : Bool)
  | star (x : AExpr)
  | funcT (params results : List AField)
  | ifaceT (methods : List AField)
  | mapTy (key val : AExpr)
  | chanTy (val : AExpr)
  | arrayTy (elt : AExpr)
  | structTy (fields : List AField)
  | optionalTy (elt : AExpr)
  deriving Repr

/-- A field node: its names, the payload of a For SGo doc comment when
one is present (the text after the marker), and its type. -/
inductive AField where
  | mk (names : List String) (doc : Option String) (typ : AExpr)
  deriving Repr

end

namespace AField

/-- The names of a field. -/
def names : AField → List String
  | .mk ns _ _ => ns

/-- The doc-comment annotation payload of a field. -/
def doc : AField → Option String
  | .mk _ d _ => d

/-- The type of a field. -/
def typ : AField → AExpr
  | .mk _ _ t => t

end AField

/-- maybeReplace (convertast.go, lines 227 to 252) for a node with the
given annotation and doc comment: an annotation whose type text parses
replaces the node; otherwise a For SGo doc comment whose payload parses
replaces it; pe is the external SGo expression parser (parser.ParseExpr,
out of scope per the spec). -/
def mrWithDoc (pe : String → Option AExpr) (ann : Ann) (doc : Option String) :
    Option AExpr :=
  match (annType ann).bind pe with
  | some r => some r
  | none => doc.bind pe

/-- The method name used for annotation lookup on an interface method:
the first declared name, or the identifier of an embedded type (possibly
under a star), or the empty string. -/
def ifaceMethodName (f : AField) : String :=
  match f.names with
  | [] =>
    match f.typ with
    | .ident n _ => n
    | .star (.ident n _) => n
    | _ => ""
  | n :: _ => n

mutual

/-- convertAST (convertast.go, lines 29 to 225) on type expressions.
The repl flag models whether a replace function was passed: only then is
the node itself replaced by an applicable annotation or wrapped in an
Optional node (pointers, maps, channels, function and interface types,
and identifiers of optionable type); children in replaceable positions
are always converted.  Interface methods are converted without a replace
function, and an annotation hit on one method aborts the conversion of
the remaining methods, as in the source.  The recursion is bounded by
fuel and exhausted fuel returns the node unchanged; type trees are
finite, so any fuel bounding the tree depth is exact. -/
def convertExpr (pe : String → Option AExpr) :
    Nat → AExpr → Ann → Bool → AExpr
  | 0, e, _, _ => e
  | fuel + 1, e, ann, repl =>
    match (if repl then (annType ann).bind pe else none : Option AExpr) with
    | some r => r
    | none =>
      match e with
      | .ident n opb =>
        if repl && opb then .optionalTy (.ident n opb) else .ident n opb
      | .star x =>
        if repl then .optionalTy (.star (convertExpr pe fuel x ann true))
        else .star (convertExpr pe fuel x ann true)
      | .funcT ps rs =>
        if repl then
          .optionalTy
            (.funcT (convertFlds pe fuel ps ann) (convertFlds pe fuel rs ann))
        else .funcT (convertFlds pe fuel ps ann) (convertFlds pe fuel rs ann)
      | .ifaceT ms =>
        if repl then .optionalTy (.ifaceT (convertIfaceMethods pe fuel ms ann))
        else .ifaceT (convertIfaceMethods pe fuel ms ann)
      | .mapTy k v =>
        if repl then
          .optionalTy (.mapTy (convertExpr pe fuel k ann true)
            (convertExpr pe fuel v ann true))
        else .mapTy (convertExpr pe fuel k ann true)
          (convertExpr pe fuel v ann true)
      | .chanTy v =>
        if repl then .optionalTy (.chanTy (convertExpr pe fuel v ann true))
        else .chanTy (convertExpr pe fuel v ann true)
      | .arrayTy elt => .arrayTy (convertExpr pe fuel elt ann true)
      | .structTy fs => .structTy (convertFlds pe fuel fs ann)
      | .optionalTy x => .optionalTy x

/-- The FieldList case of convertAST: convert each field without a
replace function, so the Field case takes over. -/
def convertFlds (pe : String → Option AExpr) :
    Nat → List AField → Ann → List AField
  | 0, fs, _ => fs
  | _ + 1, [], _ => []
  | fuel + 1, f :: rest, ann =>
    convertFld pe fuel f ann :: convertFlds pe fuel rest ann

/-- The Field case of convertAST: narrow the annotation to the single
declared name (or drop it), let an applicable annotation or doc comment
replace the field type, and otherwise convert the type with a replace
function. -/
def convertFld (pe : String → Option AExpr) : Nat → AField → Ann → AField
  | 0, f, _ => f
  | fuel + 1, .mk ns d t, ann =>
    let ann2 :=
      match ns with
      | [n] => annLookup ann n
      | _ => none
    match mrWithDoc pe ann2 d with
    | some r => .mk ns d r
    | none => .mk ns d (convertExpr pe fuel t ann2 true)

/-- The interface-method loop of convertAST: each method's type is
checked against the annotation narrowed to the method's name; a hit
replaces that type and returns, leaving the remaining methods
unconverted; otherwise the type is converted without a replace
function. -/
def convertIfaceMethods (pe : String → Option AExpr) :
    Nat → List AField → Ann → List AField
  | 0, ms, _ => ms
  | _ + 1, [], _ => []
  | fuel + 1, .mk ns d t :: rest, ann =>
    let annM := annLookup ann (ifaceMethodName (.mk ns d t))
    match (annType annM).bind pe with
    | some r => .mk ns d r :: rest
    | none =>
      .mk ns d (convertExpr pe fuel t annM false)
        :: convertIfaceMethods pe fuel rest ann

end

mutual

/-- Modelled from the spec: the defaulting rule at a position where the
importer may rewrite the node itself -- every pointer, map, channel,
function and interface type expression, and every identifier resolving
to an optionable type name, is wrapped in an Optional node, recursively;
a For SGo doc comment whose payload parses replaces a field type
instead.  The recursion carries the same fuel as the conversion it is
compared with. -/
def specDefault (pe : String → Option AExpr) : Nat → AExpr → AExpr
  | 0, e => e
  | fuel + 1, e =>
    match e with
    | .ident n opb => if opb then .optionalTy (.ident n opb) else .ident n opb
    | .star x => .optionalTy (.star (specDefault pe fuel x))
    | .funcT ps rs =>
      .optionalTy
        (.funcT (specDefaultFlds pe fuel ps) (specDefaultFlds pe fuel rs))
    | .ifaceT ms => .optionalTy (.ifaceT (specDefaultMethods pe fuel ms))
    | .mapTy k v =>
      .optionalTy (.mapTy (specDefault pe fuel k) (specDefault pe fuel v))
    | .chanTy v => .optionalTy (.chanTy (specDefault pe fuel v))
    | .arrayTy elt => .arrayTy (specDefault pe fuel elt)
    | .structTy fs => .structTy (specDefaultFlds pe fuel fs)
    | .optionalTy x => .optionalTy x

/-- Modelled from the spec: the defaulting rule at a position whose own
node is not rewritten (the declared type of a TypeSpec, the signature of
a function declaration and the type of an interface method): only the
nested replaceable positions are wrapped. -/
def specDefaultBare (pe : String → Option AExpr) : Nat → AExpr → AExpr
  | 0, e => e
  | fuel + 1, e =>
    match e with
    | .ident n opb => .ident n opb
    | .star x => .star (specDefault pe fuel x)
    | .funcT ps rs =>
      .funcT (specDefaultFlds pe fuel ps) (specDefaultFlds pe fuel rs)
    | .ifaceT ms => .ifaceT (specDefaultMethods pe fuel ms)
    | .mapTy k v => .mapTy (specDefault pe fuel k) (specDefault pe fuel v)
    | .chanTy v => .chanTy (specDefault pe fuel v)
    | .arrayTy elt => .arrayTy (specDefault pe fuel elt)
    | .structTy fs => .structTy (specDefaultFlds pe fuel fs)
    | .optionalTy x => .optionalTy x

/-- Modelled from the spec: defaulting over a field list. -/
def specDefaultFlds (pe : String → Option AExpr) :
    Nat → List AField → List AField
  | 0, fs => fs
  | _ + 1, [] => []
  | fuel + 1, f :: rest => specDefaultFld pe fuel f :: specDefaultFlds pe fuel rest

/-- Modelled from the spec: defaulting over a single field; a For SGo
doc comment whose payload parses replaces the field type. -/
def specDefaultFld (pe : String → Option AExpr) : Nat → AField → AField
  | 0, f => f
  | fuel + 1, .mk ns d t =>
    match d.bind pe with
    | some r => .mk ns d r
    | none => .mk ns d (specDefault pe fuel t)

/-- Modelled from the spec: defaulting over interface methods; a method
type is a position whose own node is not rewritten. -/
def specDefaultMethods (pe : String → Option AExpr) :
    Nat → List AField → List AField
  | 0, ms => ms
  | _ + 1, [] => []
  | fuel + 1, .mk ns d t :: rest =>
    .mk ns d (specDefaultBare pe fuel t) :: specDefaultMethods pe fuel rest

end

/-- A declaration spec of an imported file (the specs of a GenDecl). -/
inductive ASpec where
  | typeSpec (doc : Option String) (name : String) (typ : AExpr)
  | valueSpec (doc : Option String) (names : List String) (typ : Option AExpr)
  | importSpec
  deriving Repr

/-- A top-level declaration of an imported file. -/
inductive ADecl where
  | genDecl (doc : Option String) (specs : List ASpec)
  | funcDecl (doc : Option String) (name : String) (recv : Option AField)
      (typ : AExpr)
  deriving Repr

/-- The TypeSpec case of convertAST, reached with a replace function (the
second-time pass of the GenDecl case): an applicable annotation or doc
comment replaces the declared type; otherwise the declared type is
converted without a replace function, so its own top-level node is never
wrapped. -/
def convertTypeSpec (pe : String → Option AExpr) (fuel : Nat)
    (sdoc : Option String) (name : String) (typ : AExpr) (ann : Ann) : ASpec :=
  match mrWithDoc pe ann sdoc with
  | some r => .typeSpec sdoc name r
  | none => .typeSpec sdoc name (convertExpr pe fuel typ ann false)

/-- The ValueSpec case of convertAST, reached with a replace function: an
applicable annotation or doc comment replaces the declared type;
otherwise the declared type is converted with a replace function and a
nil annotation. -/
def convertValueSpec (pe : String → Option AExpr) (fuel : Nat)
    (sdoc : Option String) (names : List String) (typ : Option AExpr)
    (ann : Ann) : ASpec :=
  match mrWithDoc pe ann sdoc with
  | some r => .valueSpec sdoc names (some r)
  | none =>
    .valueSpec sdoc names (typ.map (fun t => convertExpr pe fuel t none true))

/-- The GenDecl case of convertAST: import specs are skipped; a single
spec first offers the GenDecl's own doc comment to maybeReplace (the
first-time pass) before converting the spec (the second-time pass);
several specs convert each spec directly.  The annotation is narrowed to
each spec's name. -/
def convertGenDecl (pe : String → Option AExpr) (fuel : Nat)
    (doc : Option String) (specs : List ASpec) (ann : Ann) : List ASpec :=
  specs.map fun s =>
    match s with
    | .importSpec => .importSpec
    | .typeSpec sdoc name typ =>
      let ann2 := annLookup ann name
      if specs.length == 1 then
        match mrWithDoc pe ann2 doc with
        | some r => .typeSpec sdoc name r
        | none => convertTypeSpec pe fuel sdoc name typ ann2
      else convertTypeSpec pe fuel sdoc name typ ann2
    | .valueSpec sdoc names typ =>
      let ann2 := annLookup ann (names.headD "")
      if specs.length == 1 then
        match mrWithDoc pe ann2 doc with
        | some r => .valueSpec sdoc names (some r)
        | none => convertValueSpec pe fuel sdoc names typ ann2
      else convertValueSpec pe fuel sdoc names typ ann2

/-- The FuncDecl case of convertAST: an annotation or doc hit on the
whole declaration replaces the function type when the parsed expression
is a function type; otherwise, for methods, ParseMethodExprs (pme) may
replace the function type and receiver type together, else a pointer
receiver is wrapped in an optional and an identifier receiver is
converted; finally the function type gets one more annotation chance and
is otherwise converted without a replace function. -/
def convertFuncDecl (pe : String → Option AExpr)
    (pme : String → Option (AExpr × AExpr)) (fuel : Nat) (doc : Option String)
    (name : String) (recv : Option AField) (typ : AExpr) (ann : Ann) : ADecl :=
  match mrWithDoc pe ann doc with
  | some r =>
    match r with
    | .funcT ps rs => .funcDecl doc name recv (.funcT ps rs)
    | _ => .funcDecl doc name recv typ
  | none =>
    match recv with
    | some rf =>
      match (match (annType ann).bind pme with
             | some fr => some fr
             | none => doc.bind pme) with
      | some (funTyp, recvTyp) =>
        .funcDecl doc name (some (.mk rf.names rf.doc recvTyp)) funTyp
      | none =>
        let rf2 : AField :=
          match rf.typ with
          | .star s => .mk rf.names rf.doc (.optionalTy (.star s))
          | .ident n opb =>
            .mk rf.names rf.doc (convertExpr pe fuel (.ident n opb) none true)
          | t => .mk rf.names rf.doc t
        finishFuncType pe fuel doc name (some rf2) typ ann
    | none => finishFuncType pe fuel doc name none typ ann
where
  finishFuncType (pe : String → Option AExpr) (fuel : Nat)
      (doc : Option String) (name : String) (recv : Option AField)
      (typ : AExpr) (ann : Ann) : ADecl :=
    match (annType ann).bind pe with
    | some (.funcT ps rs) => .funcDecl doc name recv (.funcT ps rs)
    | _ => .funcDecl doc name recv (convertExpr pe fuel typ none false)

/-- The lookup name of a function declaration in the annotation table:
methods on a pointer receiver are keyed in receiver form, methods on an
identifier receiver in dotted form. -/
def funcDeclAnnName (name : String) (recv : Option AField) : String :=
  match recv with
  | some rf =>
    match rf.typ with
    | .star (.ident id _) => "(*" ++ id ++ ")." ++ name
    | .ident t _ => t ++ "." ++ name
    | _ => name
  | none => name

/-- The File case of convertAST: every GenDecl is converted under the
file's annotation, every FuncDecl under the annotation narrowed to its
lookup name. -/
def convertFile (pe : String → Option AExpr)
    (pme : String → Option (AExpr × AExpr)) (fuel : Nat) (decls : List ADecl)
    (ann : Ann) : List ADecl :=
  decls.map fun d =>
    match d with
    | .genDecl doc specs => .genDecl doc (convertGenDecl pe fuel doc specs ann)
    | .funcDecl doc name recv typ =>
      convertFuncDecl pe pme fuel doc name recv typ
        (annLookup ann (funcDeclAnnName name recv))

/-! ## Helper lemmas -/

/-- Folding usable-clearing over a list clears exactly the listed
variables and leaves every collapses set unchanged. -/
theorem foldl_setUsable_false (l : List Nat) (st : Store) (w : Nat) :
    (l.foldl (fun s v => setUsable s v false) st) w
      = ⟨if w ∈ l then false else (st w).usable, (st w).collapses⟩ := by
  induction l generalizing st with
  | nil => simp
  | cons a l ih =>
    simp only [List.foldl_cons, ih, setUsable, List.mem_cons]
    by_cases hwa : w = a
    · subst hwa
      simp
    · have : (w == a) = false := by simp [hwa]
      simp [this, hwa]

/-- The entangled marking: the tail's collapses set becomes the non-tail
variables and every non-tail variable becomes unusable. -/
theorem entangleMark_spec (st : Store) (lhsVars : List Nat) (tail : Nat) :
    ((entangleMark st lhsVars tail) tail).collapses = lhsVars
      ∧ ∀ v ∈ lhsVars, ((entangleMark st lhsVars tail) v).usable = false := by
  unfold entangleMark
  constructor
  · rw [foldl_setUsable_false]
    simp [setCollapses]
  · intro v hv
    rw [foldl_setUsable_false]
    simp [hv]

/-- The branch phase of checkVars on a mixed entangled right-hand side:
values on both sides of the separator always produce the dedicated
diagnostic. -/
theorem checkVarsBranch_mixed (inp : CheckVarsIn)
    (h1 : 2 ≤ inp.entangledPos) (h2 : inp.entangledPos ≤ inp.rhs.length) :
    checkVarsBranch inp = (inp.lhsLen, true, [CheckErr.valuesOnBothSides]) := by
  have e0 : (inp.entangledPos == 0) = false := by
    simp only [beq_eq_false_iff_ne, ne_eq]
    omega
  have e1 : (inp.entangledPos == 1) = false := by
    simp only [beq_eq_false_iff_ne, ne_eq]
    omega
  have e2 : (inp.entangledPos == inp.rhs.length + 1) = false := by
    simp only [beq_eq_false_iff_ne, ne_eq]
    omega
  have e3 : 0 < inp.rhs.length := by omega
  simp [checkVarsBranch, e0, e1, e2, e3]

/-! ## Claim theorems -/

/-- C1: for a failure-side return in a function with entangled results,
convertReturnStmt emits, per non-tail result in declaration order, nil
for pointers, maps, interfaces, functions and optionals, the empty string
literal for strings, 0 for integers, 0.0 for floats and complex, false
for booleans and a braced composite literal for structs, followed by the
tail expression; the success side appends nil, or true for a bool tail.
But a channel-typed non-tail result, though of optionable kind, falls
into the unhandled default of the switch and the translator panics
instead of emitting nil, contradicting the spec's zero-literal rule and
its promise that the translator never fails on checked programs. -/
theorem convertReturn_zero_literals_chan_panics :
    convertReturnFailure
        ⟨[(.pointer (.basic .kint), "*int"), (.basic .kstring, "string"),
          (.basic .kint, "int"), (.basic .kfloat, "float64"),
          (.basic .kcomplex, "complex128"), (.basic .kbool, "bool"),
          (.structT [], "T"), (.mapT (.basic .kint) (.basic .kint), "map[int]int"),
          (.iface [], "error"), (.sig none [] [], "func()"),
          (.optional (.pointer (.basic .kint)), "?*int")],
         some (.iface [])⟩ "someErr"
      = some ["nil", "\"\"", "0", "0.0", "0.0", "false", "T\x7b\x7d", "nil",
              "nil", "nil", "nil", "someErr"]
    ∧ convertReturnFailure ⟨[(.chan (.basic .kint), "chan int")], some (.iface [])⟩
        "someErr" = none
    ∧ convertReturnSuccess ⟨[], some (.iface [])⟩ ["v1", "v2"] = ["v1", "v2", "nil"]
    ∧ convertReturnSuccess ⟨[], some (.basic .kbool)⟩ ["v1", "v2"]
        = ["v1", "v2", "true"] := by
  refine ⟨rfl, rfl, rfl, rfl⟩

/-- C2 counterexample: a mixed entangled return (values on both sides of
the separator) is rejected by checkVars even when the entangled tail is
optionable (an interface) and the non-tail value is a complete value, so
the claimed acceptance condition is false. -/
theorem checkVars_mixed_return_cex :
    CheckErr.valuesOnBothSides ∈
      checkVars
        ⟨1, [⟨.value, .pointer (.basic .kint), none⟩, ⟨.value, .iface [], none⟩],
         2, true, true⟩ (fun _ _ => false)
    ∧ IsOptionable (.iface []) = true := by
  constructor
  · decide
  · rfl

/-- C2 amended: a mixed entangled return or assignment, with values
present on both sides of the separator, is never accepted: checkVars
always emits the values-on-both-sides diagnostic, regardless of the tail
type and of the completeness of the non-tail values; an accepted
entangled statement has exactly one side of the separator populated. -/
theorem checkVars_mixed_always_rejected (inp : CheckVarsIn)
    (f : Nat → Operand → Bool)
    (h1 : 2 ≤ inp.entangledPos) (h2 : inp.entangledPos ≤ inp.rhs.length) :
    CheckErr.valuesOnBothSides ∈ checkVars inp f := by
  unfold checkVars
  rw [checkVarsBranch_mixed inp h1 h2]
  simp
  split
  · split <;> exact List.mem_cons_self _ _
  · exact List.mem_cons_self _ _

/-- C2 witness: the amended theorem applied at the concrete mixed return
of the counterexample input. -/
theorem checkVars_mixed_always_rejected_w :
    CheckErr.valuesOnBothSides ∈
      checkVars
        ⟨1, [⟨.value, .pointer (.basic .kint), none⟩, ⟨.value, .iface [], none⟩],
         2, true, true⟩ (fun _ _ => true) :=
  checkVars_mixed_always_rejected _ _ (by decide) (by decide)

/-- Helper: unpackModel on a single boolean operand without comma-ok. -/
theorem unpackModel_single_bool (x : Operand) (hb : isBoolean x.typ = true) :
    unpackModel [x] false = (1, false) := by
  cases h : x.typ <;> simp_all [unpackModel, isBoolean, GoType.underlying]

/-- C7: in a function with a boolean entangled tail, a failure-side
return (only the tail side of the separator populated) is rejected by
checkVars exactly when the tail operand is not the boolean constant
false: any non-constant boolean expression, and the constant true, draw
the entangled-bool diagnostic, and the constant false does not. -/
theorem checkVars_bool_tail_only_false (lhsLen : Nat) (x : Operand)
    (f : Nat → Operand → Bool) (hb : isBoolean x.typ = true) :
    (CheckErr.entangledBoolNotFalse 0 ∈ checkVars ⟨lhsLen, [x], 1, true, true⟩ f)
      ↔ ¬(x.mode = .constant_ ∧ x.boolVal = some false) := by
  have hunp := unpackModel_single_bool x hb
  have hbranch : checkVarsBranch ⟨lhsLen, [x], 1, true, true⟩ = (1, true, []) := by
    simp [checkVarsBranch]
  unfold checkVars
  rw [hbranch]
  simp [evalBoolErrs, List.mem_filterMap, hunp]
  have hside : ∀ (a : Nat), ((match ([x] : List Operand)[a]? with
      | some x => if f a x = true then some (CheckErr.setVarFailed a) else none
      | none => none) = some (CheckErr.entangledBoolNotFalse 0)) → False := by
    intro a hmatch
    cases hget : ([x] : List Operand)[a]? with
    | none => rw [hget] at hmatch; simp at hmatch
    | some y =>
      rw [hget] at hmatch
      simp only [] at hmatch
      split at hmatch <;> simp at hmatch
  constructor
  · rintro (hbad | ⟨a, _, _, _, hmatch⟩)
    · intro hm hv
      simp [entangledBoolBad, isBooleanConst, hb, hm, hv] at hbad
    · exact (hside a hmatch).elim
  · intro h
    left
    simp only [entangledBoolBad, isBooleanConst, hb, Bool.and_true]
    by_cases hm : x.mode = .constant_
    · have hv := h hm
      cases hvv : x.boolVal with
      | none => simp [hvv]
      | some b => cases b <;> simp_all
    · have : (x.mode == Mode.constant_) = false := by simp [hm]
      simp [this]

/-- C7 witness: the theorem applied to a non-constant boolean tail
operand, which is rejected. -/
theorem checkVars_bool_tail_only_false_w :
    isBoolean (Operand.mk .value (.basic .kbool) none).typ = true
    ∧ CheckErr.entangledBoolNotFalse 0 ∈
        checkVars ⟨1, [⟨.value, .basic .kbool, none⟩], 1, true, true⟩
          (fun _ _ => false) := by
  refine ⟨rfl, ?_⟩
  exact (checkVars_bool_tail_only_false 1 ⟨.value, .basic .kbool, none⟩
    (fun _ _ => false) rfl).mpr (by simp)

/-- C9: when the left-hand side of a single assignment is a (possibly
parenthesized) non-blank identifier naming an existing variable and the
right-hand operand is not already invalid, assignVar sets the variable's
usable flag before validating the left-hand side's assignability and the
right-hand side's assignability against it, and no failure path restores
the flag: whatever the left-hand operand's mode and the outcome of the
assignability check, the variable is usable afterwards. -/
theorem assignVar_sets_usable (scopeParent : String → Option Nat)
    (st : Nat → Var9) (lhs : LhsE) (x : Operand) (zInvalid : Bool) (zMode : Mode)
    (assignOk : Bool) (n : String) (v : Nat)
    (hname : unparen lhs = .identE n) (hblank : n ≠ "_")
    (hres : scopeParent n = some v) (hx : x.mode ≠ .invalid) :
    (((assignVar9 scopeParent st lhs x false zInvalid zMode assignOk).1) v).usable
      = true := by
  have hxm : (x.mode == Mode.invalid) = false := by simp [hx]
  have hbl : (n == "_") = false := by simp [hblank]
  unfold assignVar9
  rw [hname]
  simp only [hxm, Bool.false_or, Bool.false_eq_true, if_false, hbl, hres]
  have hv : ((fun w => if w == v then { st w with usable := true } else st w) v).usable
      = true := by simp
  cases zInvalid with
  | true => simpa using hv
  | false =>
    cases zMode <;> simp only [] <;> first
      | (cases assignOk <;> simpa using hv)
      | simpa using hv

/-- C9 witness: the theorem applied to a parenthesized identifier whose
assignment is rejected (the assignability check fails), after which the
variable is nevertheless usable. -/
theorem assignVar_sets_usable_w :
    ((assignVar9 (fun s => if s == "x" then some 0 else none)
        (fun _ => ⟨false, false⟩) (.parenE (.identE "x"))
        ⟨.value, .basic .kint, none⟩ false false .variable_ false).1 0).usable
      = true :=
  assignVar_sets_usable (fun s => if s == "x" then some 0 else none)
    (fun _ => ⟨false, false⟩) (.parenE (.identE "x")) ⟨.value, .basic .kint, none⟩
    false .variable_ false "x" 0 rfl (by decide) rfl (by decide)

/-- C6: after the checker processes an entangled binding, in a short
variable declaration as well as in an entangled assignment to existing
variables (with all left-hand nodes identifiers), every non-tail
left-hand variable is unusable and the entangled tail variable's
collapses set is exactly the list of non-tail variables — whatever store
effects the inner initVars or checkVars run had. -/
theorem entangled_binding_marks :
    (∀ (scope : String → Option Nat) (freshBase : Nat) (st : Store)
        (lhs : List LhsNode) (pos : Nat) (g : Store → Store) (t : Nat),
      (collectLhs scope freshBase lhs pos).2.1 = some t →
      ((shortVarDecl scope freshBase st lhs pos g t).collapses
          = (collectLhs scope freshBase lhs pos).1
        ∧ ∀ v ∈ (collectLhs scope freshBase lhs pos).1,
            (shortVarDecl scope freshBase st lhs pos g v).usable = false))
    ∧ (∀ (scope : String → Option Nat) (freshBase : Nat) (st : Store)
        (lhs : List LhsNode) (pos : Nat) (cEff pEff : Store → Store) (t : Nat),
      (collectAssignLhs scope freshBase lhs pos).2.1 = some t →
      (collectAssignLhs scope freshBase lhs pos).2.2 = false →
      ((assignVarsStmt scope freshBase st lhs pos cEff pEff t).collapses
          = (collectAssignLhs scope freshBase lhs pos).1
        ∧ ∀ v ∈ (collectAssignLhs scope freshBase lhs pos).1,
            (assignVarsStmt scope freshBase st lhs pos cEff pEff v).usable
              = false)) := by
  constructor
  · intro scope freshBase st lhs pos g t ht
    unfold shortVarDecl
    rw [ht]
    exact entangleMark_spec (g st) (collectLhs scope freshBase lhs pos).1 t
  · intro scope freshBase st lhs pos cEff pEff t ht hni
    unfold assignVarsStmt
    rw [ht, hni]
    simp only [Bool.false_eq_true, if_false]
    exact entangleMark_spec (cEff st) (collectAssignLhs scope freshBase lhs pos).1 t

/-- C6 witness: the theorem applied to a concrete entangled short
variable declaration and a concrete entangled assignment. -/
theorem entangled_binding_marks_w :
    ((shortVarDecl (fun _ => none) 10 (fun _ => ⟨true, []⟩)
        [.identE "a", .identE "b", .identE "err"] 3 id 12).collapses = [10, 11]
      ∧ (shortVarDecl (fun _ => none) 10 (fun _ => ⟨true, []⟩)
          [.identE "a", .identE "b", .identE "err"] 3 id 10).usable = false)
    ∧ ((assignVarsStmt (fun s => if s == "v" then some 0
          else if s == "ok" then some 1 else none) 10 (fun _ => ⟨true, []⟩)
          [.identE "v", .identE "ok"] 2 id id 1).collapses = [0]
        ∧ (assignVarsStmt (fun s => if s == "v" then some 0
            else if s == "ok" then some 1 else none) 10 (fun _ => ⟨true, []⟩)
            [.identE "v", .identE "ok"] 2 id id 0).usable = false) := by
  have h1 := entangled_binding_marks.1 (fun _ => none) 10 (fun _ => ⟨true, []⟩)
    [.identE "a", .identE "b", .identE "err"] 3 id 12 (by decide)
  have h2 := entangled_binding_marks.2
    (fun s => if s == "v" then some 0 else if s == "ok" then some 1 else none) 10
    (fun _ => ⟨true, []⟩) [.identE "v", .identE "ok"] 2 id id 1 (by decide) (by decide)
  refine ⟨⟨?_, ?_⟩, ⟨?_, ?_⟩⟩
  · simpa using h1.1
  · exact h1.2 10 (by decide)
  · simpa using h2.1
  · exact h2.2 0 (by decide)

end SGo


namespace SGo

set_option maxHeartbeats 1000000

theorem mem_findOptList (mk : Nat → List Step) (ts : List GoType) (i : Nat)
    (p : List Step) (b : Bool) :
    (p, b) ∈ findOptList mk ts i ↔
      ∃ j t, ts[j]? = some t ∧ (p, b) ∈ findOptionables2 t (mk (i + j)) true false := by
  induction ts generalizing i with
  | nil => simp [findOptList]
  | cons t rest ih =>
    rw [findOptList]
    simp only [List.mem_append, ih (i + 1)]
    constructor
    · rintro (h | ⟨j, u, hj, hu⟩)
      · exact ⟨0, t, by simp, by simpa using h⟩
      · refine ⟨j + 1, u, by simpa using hj, ?_⟩
        have : i + 1 + j = i + (j + 1) := by omega
        rw [this] at hu
        exact hu
    · rintro ⟨j, u, hj, hu⟩
      cases j with
      | zero =>
        left
        simp only [List.getElem?_cons_zero, Option.some.injEq] at hj
        subst hj
        simpa using hu
      | succ j =>
        right
        refine ⟨j, u, by simpa using hj, ?_⟩
        have : i + 1 + j = i + (j + 1) := by omega
        rw [this]
        exact hu

theorem mem_findOptFields (mk : Nat → List Step) (fs : List (String × Bool × GoType))
    (i : Nat) (aU : Bool) (p : List Step) (b : Bool) :
    (p, b) ∈ findOptFields mk fs i aU ↔
      ∃ j f, fs[j]? = some f ∧ (p, b) ∈ findOptionables2 f.2.2 (mk (i + j)) aU false := by
  induction fs generalizing i with
  | nil => simp [findOptFields]
  | cons f rest ih =>
    obtain ⟨fn, fa, ft⟩ := f
    rw [findOptFields]
    simp only [List.mem_append, ih (i + 1)]
    constructor
    · rintro (h | ⟨j, u, hj, hu⟩)
      · exact ⟨0, (fn, fa, ft), by simp, by simpa using h⟩
      · refine ⟨j + 1, u, by simpa using hj, ?_⟩
        have : i + 1 + j = i + (j + 1) := by omega
        rw [this] at hu
        exact hu
    · rintro ⟨j, u, hj, hu⟩
      cases j with
      | zero =>
        left
        simp only [List.getElem?_cons_zero, Option.some.injEq] at hj
        subst hj
        simpa using hu
      | succ j =>
        right
        refine ⟨j, u, by simpa using hj, ?_⟩
        have : i + 1 + j = i + (j + 1) := by omega
        rw [this]
        exact hu

theorem mem_findOptIface (path : List Step) (ms : List (String × GoType)) (mi : Nat)
    (p : List Step) (b : Bool) :
    (p, b) ∈ findOptIface path ms mi ↔
      ∃ j nm recv ps rs, ms[j]? = some (nm, .sig recv ps rs)
        ∧ ((p, b) ∈ findOptList (fun i => path ++ [.ifaceParam (mi + j) i]) ps 0
           ∨ (p, b) ∈ findOptList (fun i => path ++ [.ifaceResult (mi + j) i]) rs 0) := by
  induction ms generalizing mi with
  | nil => simp [findOptIface]
  | cons m rest ih =>
    obtain ⟨nm, mt⟩ := m
    by_cases hs : ∃ recv ps rs, mt = GoType.sig recv ps rs
    case neg =>
      have hred : findOptIface path ((nm, mt) :: rest) mi
          = findOptIface path rest (mi + 1) := by
        cases mt <;> first
          | (rw [findOptIface]
             rintro f r p2 s2 heq
             injection heq with h1 h2
             cases h2)
          | exact absurd ⟨_, _, _, rfl⟩ hs
      rw [hred, ih (mi + 1)]
      constructor
      · rintro ⟨j, nm2, r2, p2, s2, hj, hor⟩
        refine ⟨j + 1, nm2, r2, p2, s2, by simpa using hj, ?_⟩
        have h : mi + 1 + j = mi + (j + 1) := by omega
        rw [h] at hor
        exact hor
      · rintro ⟨j, nm2, r2, p2, s2, hj, hor⟩
        cases j with
        | zero =>
          simp only [List.getElem?_cons_zero, Option.some.injEq, Prod.mk.injEq] at hj
          exact absurd ⟨r2, p2, s2, hj.2⟩ hs
        | succ j =>
          refine ⟨j, nm2, r2, p2, s2, by simpa using hj, ?_⟩
          have h : mi + 1 + j = mi + (j + 1) := by omega
          rw [h]
          exact hor
    case pos =>
      obtain ⟨recv, ps, rs, rfl⟩ := hs
      rw [findOptIface]
      simp only [List.mem_append, ih (mi + 1)]
      constructor
      · rintro ((h | h) | ⟨j, nm2, r2, p2, s2, hj, hor⟩)
        · exact ⟨0, nm, recv, ps, rs, by simp, Or.inl (by simpa using h)⟩
        · exact ⟨0, nm, recv, ps, rs, by simp, Or.inr (by simpa using h)⟩
        · refine ⟨j + 1, nm2, r2, p2, s2, by simpa using hj, ?_⟩
          have : mi + 1 + j = mi + (j + 1) := by omega
          rw [this] at hor
          exact hor
      · rintro ⟨j, nm2, r2, p2, s2, hj, hor⟩
        cases j with
        | zero =>
          simp only [List.getElem?_cons_zero, Option.some.injEq, Prod.mk.injEq,
            GoType.sig.injEq] at hj
          obtain ⟨-, -, hp2, hs2⟩ := hj
          subst hp2; subst hs2
          left
          simpa using hor
        | succ j =>
          right
          refine ⟨j, nm2, r2, p2, s2, by simpa using hj, ?_⟩
          have : mi + 1 + j = mi + (j + 1) := by omega
          rw [this]
          exact hor

end SGo

namespace SGo

theorem sizeOf_gt_zero (T : GoType) : 0 < sizeOf T := by
  cases T <;> simp_arith

theorem typeAt_opt_cons (e : GoType) (s : Step) (r : List Step) :
    typeAt (.optional e) (s :: r) = typeAt e (s :: r) := rfl

theorem typeAt_sig_param (recv : Option GoType) (ps rs : List GoType) (j : Nat)
    (r : List Step) :
    typeAt (.sig recv ps rs) (.sigParam j :: r)
      = match ps[j]? with
        | some t => typeAt t r
        | none => none := rfl

theorem typeAt_sig_result (recv : Option GoType) (ps rs : List GoType) (j : Nat)
    (r : List Step) :
    typeAt (.sig recv ps rs) (.sigResult j :: r)
      = match rs[j]? with
        | some t => typeAt t r
        | none => none := rfl

theorem typeAt_struct_field (fs : List (String × Bool × GoType)) (j : Nat)
    (r : List Step) :
    typeAt (.structT fs) (.structField j :: r)
      = match fs[j]? with
        | some f => typeAt f.2.2 r
        | none => none := rfl

theorem typeAt_iface_param (ms : List (String × GoType)) (mi i : Nat)
    (r : List Step) :
    typeAt (.iface ms) (.ifaceParam mi i :: r)
      = match ms[mi]? with
        | some (_, .sig _ ps _) =>
          match ps[i]? with
          | some t => typeAt t r
          | none => none
        | _ => none := rfl

theorem typeAt_iface_result (ms : List (String × GoType)) (mi i : Nat)
    (r : List Step) :
    typeAt (.iface ms) (.ifaceResult mi i :: r)
      = match ms[mi]? with
        | some (_, .sig _ _ rs) =>
          match rs[i]? with
          | some t => typeAt t r
          | none => none
        | _ => none := rfl

theorem typeAt_iface_param_sig (ms : List (String × GoType)) (mi i : Nat)
    (r : List Step) (nm : String) (recv : Option GoType) (ps rs : List GoType)
    (hj : ms[mi]? = some (nm, .sig recv ps rs)) :
    typeAt (.iface ms) (.ifaceParam mi i :: r)
      = match ps[i]? with
        | some t => typeAt t r
        | none => none := by
  rw [typeAt_iface_param, hj]

theorem typeAt_iface_result_sig (ms : List (String × GoType)) (mi i : Nat)
    (r : List Step) (nm : String) (recv : Option GoType) (ps rs : List GoType)
    (hj : ms[mi]? = some (nm, .sig recv ps rs)) :
    typeAt (.iface ms) (.ifaceResult mi i :: r)
      = match rs[i]? with
        | some t => typeAt t r
        | none => none := by
  rw [typeAt_iface_result, hj]

theorem mem_findOpt_aux : ∀ (n : Nat) (T : GoType), sizeOf T ≤ n →
    ∀ (path : List Step) (aU wrapped : Bool) (p : List Step) (b : Bool),
    ((p, b) ∈ findOptionables2 T path aU wrapped ↔
      ∃ q Q, p = path ++ q ∧ typeAt T q = some (Q, false) ∧ posOptionable Q = true
        ∧ ¬(q = [] ∧ wrapped = true) ∧ b = (!aU && q.all stepChk)) := by
  intro n
  induction n with
  | zero =>
    intro T hT
    exact absurd hT (by have := sizeOf_gt_zero T; omega)
  | succ n ih =>
    intro T hT path aU wr p b
    cases T with
    | basic k =>
      rw [findOptionables2]
      simp only [List.not_mem_nil, false_iff]
      rintro ⟨q, Q, hp, hta, hpos, hne, hb⟩
      cases q with
      | nil =>
        simp only [typeAt, Option.some.injEq, Prod.mk.injEq] at hta
        rw [← hta.1] at hpos
        simp [posOptionable] at hpos
      | cons s r =>
        cases s <;> simp [typeAt, stripOpts] at hta
    | tuple es t =>
      rw [findOptionables2]
      simp only [List.not_mem_nil, false_iff]
      rintro ⟨q, Q, hp, hta, hpos, hne, hb⟩
      cases q with
      | nil =>
        simp only [typeAt, Option.some.injEq, Prod.mk.injEq] at hta
        rw [← hta.1] at hpos
        simp [posOptionable] at hpos
      | cons s r =>
        cases s <;> simp [typeAt, stripOpts] at hta
    | pointer elem =>
      have hsz : sizeOf elem ≤ n := by
        have h : sizeOf (GoType.pointer elem) = 1 + sizeOf elem := by simp
        omega
      rw [findOptionables2]
      simp only [List.mem_append]
      rw [ih elem hsz (path ++ [Step.pointee]) aU false p b]
      constructor
      · rintro (h | ⟨r, Q, hp, hta, hpos, -, hb⟩)
        · cases wr with
          | true => simp at h
          | false =>
            simp at h
            refine ⟨[], .pointer elem, by simp [h.1], rfl, rfl, by simp, by simp [h.2]⟩
        · refine ⟨.pointee :: r, Q, by simp [hp], hta, hpos, by simp, ?_⟩
          simp [hb, stepChk]
      · rintro ⟨q, Q, hp, hta, hpos, hne, hb⟩
        cases q with
        | nil =>
          left
          have hw : wr = false := by
            cases wr
            · rfl
            · exact absurd ⟨rfl, rfl⟩ hne
          subst hw
          simp only [List.append_nil] at hp
          simp only [List.all_nil, Bool.and_true] at hb
          simp [hp, hb]
        | cons s r =>
          right
          cases s with
          | pointee =>
            exact ⟨r, Q, by simpa using hp, hta, hpos, by simp, by simpa [stepChk] using hb⟩
          | mapKey => exact Option.noConfusion hta
          | mapValue => exact Option.noConfusion hta
          | sliceElem => exact Option.noConfusion hta
          | arrayElem => exact Option.noConfusion hta
          | chanElem => exact Option.noConfusion hta
          | structField i => exact Option.noConfusion hta
          | sigParam i => exact Option.noConfusion hta
          | sigResult i => exact Option.noConfusion hta
          | ifaceParam m i => exact Option.noConfusion hta
          | ifaceResult m i => exact Option.noConfusion hta
    | slice elem =>
      have hsz : sizeOf elem ≤ n := by
        have h : sizeOf (GoType.slice elem) = 1 + sizeOf elem := by simp
        omega
      rw [findOptionables2]
      rw [ih elem hsz (path ++ [Step.sliceElem]) true false p b]
      constructor
      · rintro ⟨r, Q, hp, hta, hpos, -, hb⟩
        refine ⟨.sliceElem :: r, Q, by simp [hp], hta, hpos, by simp, ?_⟩
        simp [hb, stepChk]
      · rintro ⟨q, Q, hp, hta, hpos, hne, hb⟩
        cases q with
        | nil =>
          have h1 := Option.some.inj hta
          have h2 := congrArg Prod.fst h1
          simp only [] at h2
          rw [← h2] at hpos
          simp [posOptionable] at hpos
        | cons s r =>
          cases s with
          | sliceElem =>
            exact ⟨r, Q, by simpa using hp, hta, hpos, by simp,
              by simpa [stepChk] using hb⟩
          | pointee => exact Option.noConfusion hta
          | mapKey => exact Option.noConfusion hta
          | mapValue => exact Option.noConfusion hta
          | arrayElem => exact Option.noConfusion hta
          | chanElem => exact Option.noConfusion hta
          | structField i => exact Option.noConfusion hta
          | sigParam i => exact Option.noConfusion hta
          | sigResult i => exact Option.noConfusion hta
          | ifaceParam m i => exact Option.noConfusion hta
          | ifaceResult m i => exact Option.noConfusion hta
    | array elem =>
      have hsz : sizeOf elem ≤ n := by
        have h : sizeOf (GoType.array elem) = 1 + sizeOf elem := by simp
        omega
      rw [findOptionables2]
      rw [ih elem hsz (path ++ [Step.arrayElem]) true false p b]
      constructor
      · rintro ⟨r, Q, hp, hta, hpos, -, hb⟩
        refine ⟨.arrayElem :: r, Q, by simp [hp], hta, hpos, by simp, ?_⟩
        simp [hb, stepChk]
      · rintro ⟨q, Q, hp, hta, hpos, hne, hb⟩
        cases q with
        | nil =>
          have h1 := Option.some.inj hta
          have h2 := congrArg Prod.fst h1
          simp only [] at h2
          rw [← h2] at hpos
          simp [posOptionable] at hpos
        | cons s r =>
          cases s with
          | arrayElem =>
            exact ⟨r, Q, by simpa using hp, hta, hpos, by simp,
              by simpa [stepChk] using hb⟩
          | pointee => exact Option.noConfusion hta
          | mapKey => exact Option.noConfusion hta
          | mapValue => exact Option.noConfusion hta
          | sliceElem => exact Option.noConfusion hta
          | chanElem => exact Option.noConfusion hta
          | structField i => exact Option.noConfusion hta
          | sigParam i => exact Option.noConfusion hta
          | sigResult i => exact Option.noConfusion hta
          | ifaceParam m i => exact Option.noConfusion hta
          | ifaceResult m i => exact Option.noConfusion hta
    | chan elem =>
      have hsz : sizeOf elem ≤ n := by
        have h : sizeOf (GoType.chan elem) = 1 + sizeOf elem := by simp
        omega
      rw [findOptionables2]
      simp only [List.mem_append]
      rw [ih elem hsz (path ++ [Step.chanElem]) true false p b]
      constructor
      · rintro (h | ⟨r, Q, hp, hta, hpos, -, hb⟩)
        · cases wr with
          | true => simp at h
          | false =>
            simp at h
            refine ⟨[], .chan elem, by simp [h.1], rfl, rfl, by simp, by simp [h.2]⟩
        · refine ⟨.chanElem :: r, Q, by simp [hp], hta, hpos, by simp, ?_⟩
          simp [hb, stepChk]
      · rintro ⟨q, Q, hp, hta, hpos, hne, hb⟩
        cases q with
        | nil =>
          left
          have hw : wr = false := by
            cases wr
            · rfl
            · exact absurd ⟨rfl, rfl⟩ hne
          subst hw
          simp only [List.append_nil] at hp
          simp only [List.all_nil, Bool.and_true] at hb
          simp [hp, hb]
        | cons s r =>
          right
          cases s with
          | chanElem =>
            exact ⟨r, Q, by simpa using hp, hta, hpos, by simp,
              by simpa [stepChk] using hb⟩
          | pointee => exact Option.noConfusion hta
          | mapKey => exact Option.noConfusion hta
          | mapValue => exact Option.noConfusion hta
          | sliceElem => exact Option.noConfusion hta
          | arrayElem => exact Option.noConfusion hta
          | structField i => exact Option.noConfusion hta
          | sigParam i => exact Option.noConfusion hta
          | sigResult i => exact Option.noConfusion hta
          | ifaceParam m i => exact Option.noConfusion hta
          | ifaceResult m i => exact Option.noConfusion hta
    | mapT kt vt =>
      have hszk : sizeOf kt ≤ n := by
        have h : sizeOf (GoType.mapT kt vt) = 1 + sizeOf kt + sizeOf vt := by simp
        omega
      have hszv : sizeOf vt ≤ n := by
        have h : sizeOf (GoType.mapT kt vt) = 1 + sizeOf kt + sizeOf vt := by simp
        omega
      rw [findOptionables2]
      simp only [List.mem_append]
      rw [ih kt hszk (path ++ [Step.mapKey]) true false p b]
      rw [ih vt hszv (path ++ [Step.mapValue]) true false p b]
      constructor
      · rintro ((h | ⟨r, Q, hp, hta, hpos, -, hb⟩) | ⟨r, Q, hp, hta, hpos, -, hb⟩)
        · cases wr with
          | true => simp at h
          | false =>
            simp at h
            refine ⟨[], .mapT kt vt, by simp [h.1], rfl, rfl, by simp, by simp [h.2]⟩
        · refine ⟨.mapKey :: r, Q, by simp [hp], hta, hpos, by simp, ?_⟩
          simp [hb, stepChk]
        · refine ⟨.mapValue :: r, Q, by simp [hp], hta, hpos, by simp, ?_⟩
          simp [hb, stepChk]
      · rintro ⟨q, Q, hp, hta, hpos, hne, hb⟩
        cases q with
        | nil =>
          left; left
          have hw : wr = false := by
            cases wr
            · rfl
            · exact absurd ⟨rfl, rfl⟩ hne
          subst hw
          simp only [List.append_nil] at hp
          simp only [List.all_nil, Bool.and_true] at hb
          simp [hp, hb]
        | cons s r =>
          cases s with
          | mapKey =>
            left; right
            exact ⟨r, Q, by simpa using hp, hta, hpos, by simp,
              by simpa [stepChk] using hb⟩
          | mapValue =>
            right
            exact ⟨r, Q, by simpa using hp, hta, hpos, by simp,
              by simpa [stepChk] using hb⟩
          | pointee => exact Option.noConfusion hta
          | sliceElem => exact Option.noConfusion hta
          | arrayElem => exact Option.noConfusion hta
          | chanElem => exact Option.noConfusion hta
          | structField i => exact Option.noConfusion hta
          | sigParam i => exact Option.noConfusion hta
          | sigResult i => exact Option.noConfusion hta
          | ifaceParam m i => exact Option.noConfusion hta
          | ifaceResult m i => exact Option.noConfusion hta
    | sig recv ps rs =>
      have hss : sizeOf (GoType.sig recv ps rs) = 1 + sizeOf recv + sizeOf ps + sizeOf rs := by
        simp
      rw [findOptionables2]
      simp only [List.mem_append]
      rw [mem_findOptList, mem_findOptList]
      constructor
      · rintro ((h | ⟨j, t, hj, hmem⟩) | ⟨j, t, hj, hmem⟩)
        · cases wr with
          | true => simp at h
          | false =>
            simp at h
            refine ⟨[], .sig recv ps rs, by simp [h.1], rfl, rfl, by simp, by simp [h.2]⟩
        · have hszt : sizeOf t ≤ n := by
            have h1 : sizeOf t < sizeOf ps := List.sizeOf_lt_of_mem (List.getElem?_mem hj)
            omega
          rw [ih t hszt (path ++ [Step.sigParam (0 + j)]) true false p b] at hmem
          obtain ⟨r, Q, hp, hta, hpos, -, hb⟩ := hmem
          refine ⟨.sigParam j :: r, Q, by simpa using hp, ?_, hpos, by simp, ?_⟩
          · rw [typeAt_sig_param, hj]
            exact hta
          · simp [hb, stepChk]
        · have hszt : sizeOf t ≤ n := by
            have h1 : sizeOf t < sizeOf rs := List.sizeOf_lt_of_mem (List.getElem?_mem hj)
            omega
          rw [ih t hszt (path ++ [Step.sigResult (0 + j)]) true false p b] at hmem
          obtain ⟨r, Q, hp, hta, hpos, -, hb⟩ := hmem
          refine ⟨.sigResult j :: r, Q, by simpa using hp, ?_, hpos, by simp, ?_⟩
          · rw [typeAt_sig_result, hj]
            exact hta
          · simp [hb, stepChk]
      · rintro ⟨q, Q, hp, hta, hpos, hne, hb⟩
        cases q with
        | nil =>
          left; left
          have hw : wr = false := by
            cases wr
            · rfl
            · exact absurd ⟨rfl, rfl⟩ hne
          subst hw
          simp only [List.append_nil] at hp
          simp only [List.all_nil, Bool.and_true] at hb
          simp [hp, hb]
        | cons s r =>
          cases s with
          | sigParam j =>
            left; right
            rw [typeAt_sig_param] at hta
            cases hj : ps[j]? with
            | none => rw [hj] at hta; exact Option.noConfusion hta
            | some t =>
              rw [hj] at hta
              have hszt : sizeOf t ≤ n := by
                have h1 : sizeOf t < sizeOf ps := List.sizeOf_lt_of_mem (List.getElem?_mem hj)
                omega
              refine ⟨j, t, hj, ?_⟩
              rw [ih t hszt (path ++ [Step.sigParam (0 + j)]) true false p b]
              refine ⟨r, Q, by simpa using hp, hta, hpos, by simp, ?_⟩
              simp [stepChk] at hb
              simp [hb]
          | sigResult j =>
            right
            rw [typeAt_sig_result] at hta
            cases hj : rs[j]? with
            | none => rw [hj] at hta; exact Option.noConfusion hta
            | some t =>
              rw [hj] at hta
              have hszt : sizeOf t ≤ n := by
                have h1 : sizeOf t < sizeOf rs := List.sizeOf_lt_of_mem (List.getElem?_mem hj)
                omega
              refine ⟨j, t, hj, ?_⟩
              rw [ih t hszt (path ++ [Step.sigResult (0 + j)]) true false p b]
              refine ⟨r, Q, by simpa using hp, hta, hpos, by simp, ?_⟩
              simp [stepChk] at hb
              simp [hb]
          | pointee => exact Option.noConfusion hta
          | mapKey => exact Option.noConfusion hta
          | mapValue => exact Option.noConfusion hta
          | sliceElem => exact Option.noConfusion hta
          | arrayElem => exact Option.noConfusion hta
          | chanElem => exact Option.noConfusion hta
          | structField i => exact Option.noConfusion hta
          | ifaceParam m i => exact Option.noConfusion hta
          | ifaceResult m i => exact Option.noConfusion hta
    | structT fs =>
      have hsf : sizeOf (GoType.structT fs) = 1 + sizeOf fs := by simp
      rw [findOptionables2]
      rw [mem_findOptFields]
      constructor
      · rintro ⟨j, f, hj, hmem⟩
        obtain ⟨fn, fa, ft⟩ := f
        have hszt : sizeOf ft ≤ n := by
          have h1 : sizeOf (fn, fa, ft) < sizeOf fs :=
            List.sizeOf_lt_of_mem (List.getElem?_mem hj)
          simp [Prod.mk.sizeOf_spec] at h1
          omega
        rw [ih ft hszt (path ++ [Step.structField (0 + j)]) aU false p b] at hmem
        obtain ⟨r, Q, hp, hta, hpos, -, hb⟩ := hmem
        refine ⟨.structField j :: r, Q, by simpa using hp, ?_, hpos, by simp, ?_⟩
        · rw [typeAt_struct_field, hj]
          exact hta
        · simp [hb, stepChk]
      · rintro ⟨q, Q, hp, hta, hpos, hne, hb⟩
        cases q with
        | nil =>
          have h1 := Option.some.inj hta
          have h2 := congrArg Prod.fst h1
          simp only [] at h2
          rw [← h2] at hpos
          simp [posOptionable] at hpos
        | cons s r =>
          cases s with
          | structField j =>
            rw [typeAt_struct_field] at hta
            cases hj : fs[j]? with
            | none => rw [hj] at hta; exact Option.noConfusion hta
            | some f =>
              obtain ⟨fn, fa, ft⟩ := f
              rw [hj] at hta
              have hszt : sizeOf ft ≤ n := by
                have h1 : sizeOf (fn, fa, ft) < sizeOf fs :=
                  List.sizeOf_lt_of_mem (List.getElem?_mem hj)
                simp [Prod.mk.sizeOf_spec] at h1
                omega
              refine ⟨j, (fn, fa, ft), hj, ?_⟩
              rw [ih ft hszt (path ++ [Step.structField (0 + j)]) aU false p b]
              refine ⟨r, Q, by simpa using hp, hta, hpos, by simp, ?_⟩
              simp [stepChk] at hb
              simp [hb]
          | pointee => exact Option.noConfusion hta
          | mapKey => exact Option.noConfusion hta
          | mapValue => exact Option.noConfusion hta
          | sliceElem => exact Option.noConfusion hta
          | arrayElem => exact Option.noConfusion hta
          | chanElem => exact Option.noConfusion hta
          | sigParam i => exact Option.noConfusion hta
          | sigResult i => exact Option.noConfusion hta
          | ifaceParam m i => exact Option.noConfusion hta
          | ifaceResult m i => exact Option.noConfusion hta
    | named id2 ms u =>
      rw [findOptionables2]
      constructor
      · intro h
        by_cases hc : (!wr && IsOptionable u) = true
        · rw [if_pos hc] at h
          simp at h
          simp only [Bool.and_eq_true, Bool.not_eq_eq_eq_not, Bool.not_true] at hc
          refine ⟨[], .named id2 ms u, by simp [h.1], rfl, ?_, ?_, by simp [h.2]⟩
          · show posOptionable (.named id2 ms u) = true
            simp [posOptionable, hc.2]
          · simp [hc.1]
        · rw [if_neg hc] at h
          simp at h
      · rintro ⟨q, Q, hp, hta, hpos, hne, hb⟩
        cases q with
        | nil =>
          have h1 := Option.some.inj hta
          have h2 := congrArg Prod.fst h1
          simp only [] at h2
          rw [← h2] at hpos
          have hw : wr = false := by
            cases wr
            · rfl
            · exact absurd ⟨rfl, rfl⟩ hne
          subst hw
          simp only [posOptionable] at hpos
          rw [if_pos (by simp [hpos])]
          simp only [List.append_nil] at hp
          simp only [List.all_nil, Bool.and_true] at hb
          simp [hp, hb]
        | cons s r =>
          cases s with
          | pointee => exact Option.noConfusion hta
          | mapKey => exact Option.noConfusion hta
          | mapValue => exact Option.noConfusion hta
          | sliceElem => exact Option.noConfusion hta
          | arrayElem => exact Option.noConfusion hta
          | chanElem => exact Option.noConfusion hta
          | structField i => exact Option.noConfusion hta
          | sigParam i => exact Option.noConfusion hta
          | sigResult i => exact Option.noConfusion hta
          | ifaceParam m i => exact Option.noConfusion hta
          | ifaceResult m i => exact Option.noConfusion hta
    | optional e =>
      have hsz : sizeOf e ≤ n := by
        have h : sizeOf (GoType.optional e) = 1 + sizeOf e := by simp
        omega
      rw [findOptionables2]
      rw [ih e hsz path aU true p b]
      constructor
      · rintro ⟨q, Q, hp, hta, hpos, hne, hb⟩
        cases q with
        | nil => exact absurd ⟨rfl, rfl⟩ hne
        | cons s r =>
          refine ⟨s :: r, Q, hp, ?_, hpos, by simp, hb⟩
          rw [typeAt_opt_cons]
          exact hta
      · rintro ⟨q, Q, hp, hta, hpos, hne, hb⟩
        cases q with
        | nil =>
          have h1 := Option.some.inj hta
          have h2 := congrArg Prod.snd h1
          exact Bool.noConfusion h2
        | cons s r =>
          rw [typeAt_opt_cons] at hta
          exact ⟨s :: r, Q, hp, hta, hpos, by simp, hb⟩
    | iface ms =>
      have hsi : sizeOf (GoType.iface ms) = 1 + sizeOf ms := by simp
      rw [findOptionables2]
      simp only [List.mem_append]
      rw [mem_findOptIface]
      constructor
      · rintro (h | ⟨j, nm, recv2, ps2, rs2, hj, hor⟩)
        · cases wr with
          | true => simp at h
          | false =>
            simp at h
            refine ⟨[], .iface ms, by simp [h.1], rfl, rfl, by simp, by simp [h.2]⟩
        · have hmsz : sizeOf (GoType.sig recv2 ps2 rs2) < sizeOf ms := by
            have h1 : sizeOf (nm, GoType.sig recv2 ps2 rs2) < sizeOf ms :=
              List.sizeOf_lt_of_mem (List.getElem?_mem hj)
            simp [Prod.mk.sizeOf_spec] at h1
            simp
            omega
          rcases hor with hmem | hmem
          · rw [mem_findOptList] at hmem
            obtain ⟨i, t, hi, hmem⟩ := hmem
            have hszt : sizeOf t ≤ n := by
              have h1 : sizeOf t < sizeOf ps2 := List.sizeOf_lt_of_mem (List.getElem?_mem hi)
              have h2 : sizeOf (GoType.sig recv2 ps2 rs2)
                  = 1 + sizeOf recv2 + sizeOf ps2 + sizeOf rs2 := by simp
              omega
            rw [ih t hszt (path ++ [Step.ifaceParam (0 + j) (0 + i)]) true false p b] at hmem
            obtain ⟨r, Q, hp, hta, hpos, -, hb⟩ := hmem
            refine ⟨.ifaceParam j i :: r, Q, by simpa using hp, ?_, hpos, by simp, ?_⟩
            · rw [typeAt_iface_param_sig ms j i r nm recv2 ps2 rs2 hj, hi]
              exact hta
            · simp [hb, stepChk]
          · rw [mem_findOptList] at hmem
            obtain ⟨i, t, hi, hmem⟩ := hmem
            have hszt : sizeOf t ≤ n := by
              have h1 : sizeOf t < sizeOf rs2 := List.sizeOf_lt_of_mem (List.getElem?_mem hi)
              have h2 : sizeOf (GoType.sig recv2 ps2 rs2)
                  = 1 + sizeOf recv2 + sizeOf ps2 + sizeOf rs2 := by simp
              omega
            rw [ih t hszt (path ++ [Step.ifaceResult (0 + j) (0 + i)]) true false p b] at hmem
            obtain ⟨r, Q, hp, hta, hpos, -, hb⟩ := hmem
            refine ⟨.ifaceResult j i :: r, Q, by simpa using hp, ?_, hpos, by simp, ?_⟩
            · rw [typeAt_iface_result_sig ms j i r nm recv2 ps2 rs2 hj, hi]
              exact hta
            · simp [hb, stepChk]
      · rintro ⟨q, Q, hp, hta, hpos, hne, hb⟩
        cases q with
        | nil =>
          left
          have hw : wr = false := by
            cases wr
            · rfl
            · exact absurd ⟨rfl, rfl⟩ hne
          subst hw
          simp only [List.append_nil] at hp
          simp only [List.all_nil, Bool.and_true] at hb
          simp [hp, hb]
        | cons s r =>
          cases s with
          | ifaceParam mi i =>
            right
            cases hmq : ms[mi]? with
            | none =>
              rw [typeAt_iface_param, hmq] at hta
              exact Option.noConfusion hta
            | some m =>
              obtain ⟨nm, mt⟩ := m
              cases mt with
              | sig recv2 ps2 rs2 =>
                rw [typeAt_iface_param_sig ms mi i r nm recv2 ps2 rs2 hmq] at hta
                cases hiq : ps2[i]? with
                | none => rw [hiq] at hta; exact Option.noConfusion hta
                | some t =>
                  rw [hiq] at hta
                  have hmsz : sizeOf (GoType.sig recv2 ps2 rs2) < sizeOf ms := by
                    have h1 : sizeOf (nm, GoType.sig recv2 ps2 rs2) < sizeOf ms :=
                      List.sizeOf_lt_of_mem (List.getElem?_mem hmq)
                    simp [Prod.mk.sizeOf_spec] at h1
                    simp
                    omega
                  have hszt : sizeOf t ≤ n := by
                    have h1 : sizeOf t < sizeOf ps2 :=
                      List.sizeOf_lt_of_mem (List.getElem?_mem hiq)
                    have h2 : sizeOf (GoType.sig recv2 ps2 rs2)
                        = 1 + sizeOf recv2 + sizeOf ps2 + sizeOf rs2 := by simp
                    omega
                  refine ⟨mi, nm, recv2, ps2, rs2, hmq, Or.inl ?_⟩
                  rw [mem_findOptList]
                  refine ⟨i, t, hiq, ?_⟩
                  rw [ih t hszt (path ++ [Step.ifaceParam (0 + mi) (0 + i)]) true false p b]
                  refine ⟨r, Q, by simpa using hp, hta, hpos, by simp, ?_⟩
                  simp [stepChk] at hb
                  simp [hb]
              | basic k =>
                rw [typeAt_iface_param, hmq] at hta
                exact Option.noConfusion hta
              | pointer e2 =>
                rw [typeAt_iface_param, hmq] at hta
                exact Option.noConfusion hta
              | slice e2 =>
                rw [typeAt_iface_param, hmq] at hta
                exact Option.noConfusion hta
              | array e2 =>
                rw [typeAt_iface_param, hmq] at hta
                exact Option.noConfusion hta
              | mapT k2 v2 =>
                rw [typeAt_iface_param, hmq] at hta
                exact Option.noConfusion hta
              | chan e2 =>
                rw [typeAt_iface_param, hmq] at hta
                exact Option.noConfusion hta
              | iface ms2 =>
                rw [typeAt_iface_param, hmq] at hta
                exact Option.noConfusion hta
              | structT fs2 =>
                rw [typeAt_iface_param, hmq] at hta
                exact Option.noConfusion hta
              | named a2 b2 c2 =>
                rw [typeAt_iface_param, hmq] at hta
                exact Option.noConfusion hta
              | optional e2 =>
                rw [typeAt_iface_param, hmq] at hta
                exact Option.noConfusion hta
              | tuple es2 t2 =>
                rw [typeAt_iface_param, hmq] at hta
                exact Option.noConfusion hta
          | ifaceResult mi i =>
            right
            cases hmq : ms[mi]? with
            | none =>
              rw [typeAt_iface_result, hmq] at hta
              exact Option.noConfusion hta
            | some m =>
              obtain ⟨nm, mt⟩ := m
              cases mt with
              | sig recv2 ps2 rs2 =>
                rw [typeAt_iface_result_sig ms mi i r nm recv2 ps2 rs2 hmq] at hta
                cases hiq : rs2[i]? with
                | none => rw [hiq] at hta; exact Option.noConfusion hta
                | some t =>
                  rw [hiq] at hta
                  have hmsz : sizeOf (GoType.sig recv2 ps2 rs2) < sizeOf ms := by
                    have h1 : sizeOf (nm, GoType.sig recv2 ps2 rs2) < sizeOf ms :=
                      List.sizeOf_lt_of_mem (List.getElem?_mem hmq)
                    simp [Prod.mk.sizeOf_spec] at h1
                    simp
                    omega
                  have hszt : sizeOf t ≤ n := by
                    have h1 : sizeOf t < sizeOf rs2 :=
                      List.sizeOf_lt_of_mem (List.getElem?_mem hiq)
                    have h2 : sizeOf (GoType.sig recv2 ps2 rs2)
                        = 1 + sizeOf recv2 + sizeOf ps2 + sizeOf rs2 := by simp
                    omega
                  refine ⟨mi, nm, recv2, ps2, rs2, hmq, Or.inr ?_⟩
                  rw [mem_findOptList]
                  refine ⟨i, t, hiq, ?_⟩
                  rw [ih t hszt (path ++ [Step.ifaceResult (0 + mi) (0 + i)]) true false p b]
                  refine ⟨r, Q, by simpa using hp, hta, hpos, by simp, ?_⟩
                  simp [stepChk] at hb
                  simp [hb]
              | basic k =>
                rw [typeAt_iface_result, hmq] at hta
                exact Option.noConfusion hta
              | pointer e2 =>
                rw [typeAt_iface_result, hmq] at hta
                exact Option.noConfusion hta
              | slice e2 =>
                rw [typeAt_iface_result, hmq] at hta
                exact Option.noConfusion hta
              | array e2 =>
                rw [typeAt_iface_result, hmq] at hta
                exact Option.noConfusion hta
              | mapT k2 v2 =>
                rw [typeAt_iface_result, hmq] at hta
                exact Option.noConfusion hta
              | chan e2 =>
                rw [typeAt_iface_result, hmq] at hta
                exact Option.noConfusion hta
              | iface ms2 =>
                rw [typeAt_iface_result, hmq] at hta
                exact Option.noConfusion hta
              | structT fs2 =>
                rw [typeAt_iface_result, hmq] at hta
                exact Option.noConfusion hta
              | named a2 b2 c2 =>
                rw [typeAt_iface_result, hmq] at hta
                exact Option.noConfusion hta
              | optional e2 =>
                rw [typeAt_iface_result, hmq] at hta
                exact Option.noConfusion hta
              | tuple es2 t2 =>
                rw [typeAt_iface_result, hmq] at hta
                exact Option.noConfusion hta
          | pointee => exact Option.noConfusion hta
          | mapKey => exact Option.noConfusion hta
          | mapValue => exact Option.noConfusion hta
          | sliceElem => exact Option.noConfusion hta
          | arrayElem => exact Option.noConfusion hta
          | chanElem => exact Option.noConfusion hta
          | structField i => exact Option.noConfusion hta
          | sigParam i => exact Option.noConfusion hta
          | sigResult i => exact Option.noConfusion hta

end SGo

namespace SGo

theorem spec_check_iff (T : GoType) (p : List Step) :
    specCheckablePos T p = true ↔
      ∃ Q, typeAt T p = some (Q, false) ∧ posOptionable Q = true
        ∧ p.all stepChk = true := by
  unfold specCheckablePos
  cases h : typeAt T p with
  | none => simp
  | some qw =>
    obtain ⟨Q, w⟩ := qw
    cases w <;> simp [Bool.and_eq_true]

theorem spec_uncheck_iff (T : GoType) (p : List Step) :
    specUncheckedPos T p = true ↔
      ∃ Q, typeAt T p = some (Q, false) ∧ posOptionable Q = true
        ∧ p.all stepChk = false := by
  unfold specUncheckedPos
  cases h : typeAt T p with
  | none => simp
  | some qw =>
    obtain ⟨Q, w⟩ := qw
    cases w <;> simp [Bool.and_eq_true]

theorem mem_FindOptionables_fst (T : GoType) (p : List Step) :
    p ∈ (FindOptionables T).1 ↔ (p, true) ∈ findOptionables2 T [] false false := by
  simp only [FindOptionables, List.mem_filterMap]
  constructor
  · rintro ⟨⟨pp, bb⟩, hin, hf⟩
    cases bb
    · simp at hf
    · simp at hf
      subst hf
      exact hin
  · intro h
    exact ⟨(p, true), h, by simp⟩

theorem mem_FindOptionables_snd (T : GoType) (p : List Step) :
    p ∈ (FindOptionables T).2 ↔ (p, false) ∈ findOptionables2 T [] false false := by
  simp only [FindOptionables, List.mem_filterMap]
  constructor
  · rintro ⟨⟨pp, bb⟩, hin, hf⟩
    cases bb
    · simp at hf
      subst hf
      exact hin
    · simp at hf
  · intro h
    exact ⟨(p, false), h, by simp⟩

/-- C5 amended: FindOptionables returns as checkable exactly the
optionable positions (positions holding a pointer, map, channel, function
or interface type, or a named type with optionable underlying, not
directly wrapped in an Optional) reachable through the dynamic value —
every step of the path a pointer dereference or struct field selection,
including fields of a struct at the root — and as unchecked exactly the
optionable positions whose path crosses a slice, array, map or channel
element, a map key, or a parameter or result of a signature or interface
method.  Named types are classified atomically by their underlying's
kind: the search does not descend into a named type's structure, and an
optional wrapper hides the wrapped position itself but not deeper
positions. -/
theorem FindOptionables_characterization (T : GoType) (p : List Step) :
    (p ∈ (FindOptionables T).1 ↔ specCheckablePos T p = true)
      ∧ (p ∈ (FindOptionables T).2 ↔ specUncheckedPos T p = true) := by
  have hmain := mem_findOpt_aux (sizeOf T) T le_rfl [] false false p
  constructor
  · rw [mem_FindOptionables_fst, hmain true, spec_check_iff]
    constructor
    · rintro ⟨q, Q, hpq, hta, hpos, -, hb⟩
      simp at hpq
      subst hpq
      exact ⟨Q, hta, hpos, by simpa using hb.symm⟩
    · rintro ⟨Q, hta, hpos, hall⟩
      exact ⟨p, Q, by simp, hta, hpos, by simp, by simp [hall]⟩
  · rw [mem_FindOptionables_snd, hmain false, spec_uncheck_iff]
    constructor
    · rintro ⟨q, Q, hpq, hta, hpos, -, hb⟩
      simp at hpq
      subst hpq
      refine ⟨Q, hta, hpos, ?_⟩
      simpa using hb.symm
    · rintro ⟨Q, hta, hpos, hall⟩
      exact ⟨p, Q, by simp, hta, hpos, by simp, by simp [hall]⟩

/-- C5 counterexample: for the named type P with underlying pointer to
pointer to int, the claim's dynamic-value reading (named types
transparent, pointees of pointers at checkable positions checkable
transitively) puts the pointee position in the checkable class, but
FindOptionables stops at the named type and does not return it. -/
theorem FindOptionables_named_opaque_cex :
    claimCheckableLit (.named 7 [] (.pointer (.pointer (.basic .kint)))) [Step.pointee]
        = true
    ∧ [Step.pointee] ∉
        (FindOptionables (.named 7 [] (.pointer (.pointer (.basic .kint))))).1 := by
  constructor
  · rfl
  · intro hmem
    rw [mem_FindOptionables_fst] at hmem
    rw [mem_findOpt_aux (sizeOf (GoType.named 7 [] (.pointer (.pointer (.basic .kint)))))
      _ le_rfl [] false false [Step.pointee] true] at hmem
    obtain ⟨q, Q, hpq, hta, -, -, -⟩ := hmem
    simp at hpq
    subst hpq
    exact Option.noConfusion hta

/-- C4: whenever the target type of an assertion has at least one
unchecked optionable path as computed by FindOptionables, assertableTo
returns early with exactly those paths, with no missing method and no
wrong-type flag regardless of the method-set comparison's outcome (no
method-set check is performed), and the checker rejects the assertion. -/
theorem assertableTo_unchecked_paths (T : GoType)
    (h : (FindOptionables T).2 ≠ []) (mm : Option (String × Bool)) (strict : Bool) :
    assertableTo mm strict T = (none, false, (FindOptionables T).2)
      ∧ assertionRejected mm strict T = true := by
  have hlen : 0 < (FindOptionables T).2.length := List.length_pos.mpr h
  have h1 : assertableTo mm strict T = (none, false, (FindOptionables T).2) := by
    unfold assertableTo
    rw [if_pos (by simpa using hlen)]
  refine ⟨h1, ?_⟩
  unfold assertionRejected
  rw [h1]
  simp
  omega

/-- C4 witness: the theorem applied to the function type func(*int),
whose parameter is an unchecked optionable path. -/
theorem assertableTo_unchecked_paths_w :
    (FindOptionables (.sig none [.pointer (.basic .kint)] [])).2 ≠ []
    ∧ assertionRejected none false (.sig none [.pointer (.basic .kint)] []) = true := by
  have hne : (FindOptionables (.sig none [.pointer (.basic .kint)] [])).2
      = [[Step.sigParam 0]] := by
    simp [FindOptionables, findOptionables2, findOptList]
  refine ⟨by simp [hne], ?_⟩
  exact (assertableTo_unchecked_paths (.sig none [.pointer (.basic .kint)] [])
    (by simp [hne]) none false).2

end SGo

namespace SGo

/-- On an optional lookup, the struct-field loop never matches a field:
it succeeds with the potential match unchanged. -/
theorem scanFields_opt (name : String) (e : EmbeddedType)
    (fs : List (String × Bool × GoType)) (st : ScanSt) :
    ∃ st2, scanFields true name e fs st = .ok st2 ∧ st2.obj = st.obj := by
  suffices h : ∀ (i : Nat) (fs : List (String × Bool × GoType)) (st : ScanSt),
      ∃ st2, scanFields.go true name e i fs st = .ok st2 ∧ st2.obj = st.obj by
    exact h 0 fs st
  intro i fs
  induction fs generalizing i with
  | nil => intro st; exact ⟨st, rfl, rfl⟩
  | cons f rest ih =>
    intro st
    obtain ⟨fn, fa, ft⟩ := f
    rw [scanFields.go]
    simp only [Bool.not_true, Bool.false_and, Bool.false_eq_true, if_false]
    cases hobj : st.obj with
    | nothing =>
      cases fa with
      | true =>
        simp only []
        obtain ⟨st2, h1, h2⟩ := ih (i + 1) _
        exact ⟨st2, h1, by rw [h2]⟩
      | false =>
        simp only []
        obtain ⟨st2, h1, h2⟩ := ih (i + 1) st
        exact ⟨st2, h1, by rw [h2, hobj]⟩
    | fieldO n2 t2 =>
      obtain ⟨st2, h1, h2⟩ := ih (i + 1) st
      exact ⟨st2, h1, by rw [h2, hobj]⟩
    | methodO n2 t2 =>
      obtain ⟨st2, h1, h2⟩ := ih (i + 1) st
      exact ⟨st2, h1, by rw [h2, hobj]⟩

/-- On an optional lookup, the underlying-type switch yields either an
early nothing-result or a state whose potential match is nothing or a
method. -/
theorem scanUnderlying_opt (name : String) (e : EmbeddedType) (t : GoType)
    (st : ScanSt)
    (hst : st.obj = .nothing ∨ ∃ nm ft, st.obj = .methodO nm ft) :
    (∃ idx, scanEntry.scanUnderlying true name e t st = .error ⟨.nothing, idx, false⟩)
      ∨ ∃ st2, scanEntry.scanUnderlying true name e t st = .ok st2
          ∧ (st2.obj = .nothing ∨ ∃ nm ft, st2.obj = .methodO nm ft) := by
  unfold scanEntry.scanUnderlying
  split
  · rename_i fs
    obtain ⟨st2, h1, h2⟩ := scanFields_opt name e fs st
    exact Or.inr ⟨st2, h1, by rw [h2]; exact hst⟩
  · rename_i ms
    cases hlm : lookupMethod ms name with
    | none => simp only [hlm]; exact Or.inr ⟨st, rfl, hst⟩
    | some im =>
      obtain ⟨i, mname, mtyp⟩ := im
      simp only [hlm]
      rcases hst with hobj | ⟨nm, ft, hobj⟩
      · rw [hobj]
        simp only []
        cases hmul : e.multiples with
        | true => exact Or.inl ⟨e.index ++ [i], rfl⟩
        | false =>
          right
          exact ⟨_, rfl, Or.inr ⟨mname, mtyp, rfl⟩⟩
      · rw [hobj]
        exact Or.inl ⟨e.index ++ [i], rfl⟩
  · exact Or.inr ⟨st, rfl, hst⟩

theorem scanEntry_opt (name : String) (st : ScanSt) (e : EmbeddedType)
    (hst : st.obj = .nothing ∨ ∃ nm ft, st.obj = .methodO nm ft) :
    (∃ idx, scanEntry true name st e = .error ⟨.nothing, idx, false⟩)
      ∨ ∃ st2, scanEntry true name st e = .ok st2
          ∧ (st2.obj = .nothing ∨ ∃ nm ft, st2.obj = .methodO nm ft) := by
  cases he : e.typ with
  | named id2 ms u =>
    unfold scanEntry
    rw [he]
    by_cases hseen : st.seen.contains id2
    · simp only [hseen, if_true]
      exact Or.inr ⟨st, rfl, hst⟩
    · simp only [hseen, Bool.false_eq_true, if_false]
      cases hlm : lookupMethod ms name with
      | none =>
        exact scanUnderlying_opt name { e with typ := u } u _
          (by simpa using hst)
      | some im =>
        obtain ⟨i, mname, mtyp⟩ := im
        rcases hst with hobj | ⟨nm, ft, hobj⟩
        · rw [hobj]
          simp only []
          cases hmul : e.multiples with
          | true => exact Or.inl ⟨e.index ++ [i], rfl⟩
          | false =>
            by_cases hopt : (e.opt && !(match sigRecv mtyp with
                | some r => isOptional r
                | none => false)) = true
            · rw [if_neg (by simp), if_pos hopt]
              exact Or.inr ⟨_, rfl, Or.inl rfl⟩
            · rw [if_neg (by simp), if_neg hopt]
              exact Or.inr ⟨_, rfl, Or.inr ⟨mname, mtyp, rfl⟩⟩
        · rw [hobj]
          exact Or.inl ⟨e.index ++ [i], rfl⟩
  | basic k =>
    unfold scanEntry
    rw [he]
    exact scanUnderlying_opt name e _ st hst
  | pointer e2 =>
    unfold scanEntry
    rw [he]
    exact scanUnderlying_opt name e _ st hst
  | slice e2 =>
    unfold scanEntry
    rw [he]
    exact scanUnderlying_opt name e _ st hst
  | array e2 =>
    unfold scanEntry
    rw [he]
    exact scanUnderlying_opt name e _ st hst
  | mapT k2 v2 =>
    unfold scanEntry
    rw [he]
    exact scanUnderlying_opt name e _ st hst
  | chan e2 =>
    unfold scanEntry
    rw [he]
    exact scanUnderlying_opt name e _ st hst
  | sig r2 p2 s2 =>
    unfold scanEntry
    rw [he]
    exact scanUnderlying_opt name e _ st hst
  | iface ms =>
    unfold scanEntry
    rw [he]
    exact scanUnderlying_opt name e _ st hst
  | structT fs =>
    unfold scanEntry
    rw [he]
    exact scanUnderlying_opt name e _ st hst
  | optional e2 =>
    unfold scanEntry
    rw [he]
    exact scanUnderlying_opt name e _ st hst
  | tuple es2 t2 =>
    unfold scanEntry
    rw [he]
    exact scanUnderlying_opt name e _ st hst

/-- On an optional lookup, folding the entry scanner over a depth's
worklist errors with a nothing-result or succeeds with a potential match
that is nothing or a method. -/
theorem foldScan_opt (name : String) (entries : List EmbeddedType) (st : ScanSt)
    (hst : st.obj = .nothing ∨ ∃ nm ft, st.obj = .methodO nm ft) :
    (∃ idx, entries.foldlM (scanEntry true name) st = .error ⟨.nothing, idx, false⟩)
      ∨ ∃ st2, entries.foldlM (scanEntry true name) st = .ok st2
          ∧ (st2.obj = .nothing ∨ ∃ nm ft, st2.obj = .methodO nm ft) := by
  induction entries generalizing st with
  | nil => exact Or.inr ⟨st, rfl, hst⟩
  | cons e rest ih =>
    rcases scanEntry_opt name st e hst with ⟨idx, herr⟩ | ⟨st2, hok, h2⟩
    · exact Or.inl ⟨idx, by simp [List.foldlM_cons, herr, bind, Except.bind]⟩
    · rcases ih st2 h2 with ⟨idx, herr⟩ | ⟨st3, hok3, h3⟩
      · exact Or.inl ⟨idx, by simp [List.foldlM_cons, hok, herr, bind, Except.bind]⟩
      · exact Or.inr ⟨st3, by simp [List.foldlM_cons, hok, hok3, bind, Except.bind], h3⟩

/-- On an optional lookup, the depth loop returns nothing or a method
whose declared receiver type is optional. -/
theorem lookupLoop_opt (addressable : Bool) (name : String) :
    ∀ (fuel : Nat) (seen : List Nat) (current : List EmbeddedType),
    (lookupLoop true addressable name fuel seen current).obj = .nothing
      ∨ ∃ nm ft, (lookupLoop true addressable name fuel seen current).obj
          = .methodO nm ft ∧ optRecv ft = true := by
  intro fuel
  induction fuel with
  | zero => intro seen current; exact Or.inl rfl
  | succ n ih =>
    intro seen current
    rw [lookupLoop]
    by_cases hemp : current.isEmpty
    · simp [hemp]
    · simp only [hemp, Bool.false_eq_true, if_false]
      rcases foldScan_opt name current ⟨seen, .nothing, [], false, []⟩ (Or.inl rfl) with
        ⟨idx, herr⟩ | ⟨st2, hok, h2⟩
      · rw [herr]
        exact Or.inl rfl
      · rcases st2 with ⟨sseen, sobj, sidx, sind, snext⟩
        rw [hok]
        rcases h2 with hobj | ⟨nm, ft, hobj⟩
        · cases hobj
          exact ih sseen (consolidateMultiples snext)
        · cases hobj
          show (finishLookup true addressable (.methodO nm ft) sidx sind).obj
              = .nothing ∨ ∃ nm2 ft2,
              (finishLookup true addressable (.methodO nm ft) sidx sind).obj
                = .methodO nm2 ft2 ∧ optRecv ft2 = true
          simp only [finishLookup]
          by_cases hopt : optRecv ft = true
          · rw [if_pos hopt]
            split
            · exact Or.inl rfl
            · exact Or.inr ⟨nm, ft, rfl, hopt⟩
          · rw [if_neg hopt]
            exact Or.inl rfl

/-- C3 amended: looking up a field or method on an expression of optional
type yields no fields, and no methods except those whose declared
receiver type is itself optional; in particular on an optional of a type
with no optional-receiver methods the lookup yields no object, leaving
nil comparison as the only accepted operation. -/
theorem lookup_on_optional_only_optional_recv (fuel : Nat) (T : GoType)
    (addressable : Bool) (name : String) (h : isOptional T = true) :
    (LookupFieldOrMethod fuel T addressable name).obj = .nothing
      ∨ ∃ nm ft, (LookupFieldOrMethod fuel T addressable name).obj = .methodO nm ft
          ∧ optRecv ft = true := by
  cases T with
  | optional e =>
    show (lookupFieldOrMethodF fuel (.optional e) addressable name).obj = .nothing
        ∨ ∃ nm ft, (lookupFieldOrMethodF fuel (.optional e) addressable name).obj
            = .methodO nm ft ∧ optRecv ft = true
    simp only [lookupFieldOrMethodF]
    split
    · exact Or.inl rfl
    · split
      · exact Or.inl rfl
      · show (lookupLoop true addressable name fuel []
              [⟨(deref e).1, [], (deref e).2, true, false⟩]).obj = .nothing ∨ ∃ nm ft,
            (lookupLoop true addressable name fuel []
              [⟨(deref e).1, [], (deref e).2, true, false⟩]).obj = .methodO nm ft
              ∧ optRecv ft = true
        exact lookupLoop_opt addressable name fuel []
          [⟨(deref e).1, [], (deref e).2, true, false⟩]
  | basic k => simp [isOptional] at h
  | pointer e2 => simp [isOptional] at h
  | slice e2 => simp [isOptional] at h
  | array e2 => simp [isOptional] at h
  | mapT k2 v2 => simp [isOptional] at h
  | chan e2 => simp [isOptional] at h
  | sig r2 p2 s2 => simp [isOptional] at h
  | iface ms => simp [isOptional] at h
  | structT fs => simp [isOptional] at h
  | named a2 b2 c2 => simp [isOptional] at h
  | tuple es2 t2 => simp [isOptional] at h

/-- Instance of the optional-lookup theorem at a concrete optional struct type. -/
theorem lookup_on_optional_only_optional_recv_w :
    isOptional (.optional (.structT [("f", false, .pointer (.basic .kint))])) = true
    ∧ ((LookupFieldOrMethod 3
          (.optional (.structT [("f", false, .pointer (.basic .kint))]))
          false "f").obj = .nothing
        ∨ ∃ nm ft, (LookupFieldOrMethod 3
            (.optional (.structT [("f", false, .pointer (.basic .kint))]))
            false "f").obj = .methodO nm ft ∧ optRecv ft = true) :=
  ⟨rfl, lookup_on_optional_only_optional_recv 3
    (.optional (.structT [("f", false, .pointer (.basic .kint))])) false "f" rfl⟩

/-- C3: a method whose declared receiver type is optional IS found by
lookup on an optional type, so lookup on an optional does not always
yield no object. -/
theorem lookup_optional_method_cex :
    isOptional (.optional (.named 7
        [("hello", .sig (some (.optional (.mapT (.basic .kint) (.basic .kint)))) [] [])]
        (.structT []))) = true
    ∧ (LookupFieldOrMethod 2 (.optional (.named 7
          [("hello", .sig (some (.optional (.mapT (.basic .kint) (.basic .kint)))) [] [])]
          (.structT []))) false "hello").obj
        = .methodO "hello"
            (.sig (some (.optional (.mapT (.basic .kint) (.basic .kint)))) [] []) :=
  ⟨rfl, rfl⟩

/-- With a nil annotation, the conversion of type expressions, fields
and interface methods coincides, at every fuel, with the defaulting rule
modelled from the spec. -/
theorem conv_default_aux (pe : String → Option AExpr) :
    ∀ fuel : Nat,
      (∀ e : AExpr,
        convertExpr pe fuel e none true = specDefault pe fuel e
        ∧ convertExpr pe fuel e none false = specDefaultBare pe fuel e)
      ∧ (∀ fs : List AField,
        convertFlds pe fuel fs none = specDefaultFlds pe fuel fs)
      ∧ (∀ f : AField, convertFld pe fuel f none = specDefaultFld pe fuel f)
      ∧ (∀ ms : List AField,
        convertIfaceMethods pe fuel ms none = specDefaultMethods pe fuel ms) := by
  intro fuel
  induction fuel with
  | zero =>
    exact ⟨fun e => ⟨rfl, rfl⟩, fun fs => rfl, fun f => rfl, fun ms => rfl⟩
  | succ n ih =>
    obtain ⟨ihE, ihFs, ihF, ihMs⟩ := ih
    refine ⟨?_, ?_, ?_, ?_⟩
    · intro e
      cases e with
      | ident nm opb =>
        cases opb <;> exact ⟨rfl, rfl⟩
      | star x =>
        obtain ⟨h1, _⟩ := ihE x
        constructor
        · show AExpr.optionalTy (.star (convertExpr pe n x none true))
            = AExpr.optionalTy (.star (specDefault pe n x))
          rw [h1]
        · show AExpr.star (convertExpr pe n x none true)
            = AExpr.star (specDefault pe n x)
          rw [h1]
      | funcT ps rs =>
        constructor
        · show AExpr.optionalTy
              (.funcT (convertFlds pe n ps none) (convertFlds pe n rs none))
            = AExpr.optionalTy
              (.funcT (specDefaultFlds pe n ps) (specDefaultFlds pe n rs))
          rw [ihFs ps, ihFs rs]
        · show AExpr.funcT (convertFlds pe n ps none) (convertFlds pe n rs none)
            = AExpr.funcT (specDefaultFlds pe n ps) (specDefaultFlds pe n rs)
          rw [ihFs ps, ihFs rs]
      | ifaceT ms =>
        constructor
        · show AExpr.optionalTy (.ifaceT (convertIfaceMethods pe n ms none))
            = AExpr.optionalTy (.ifaceT (specDefaultMethods pe n ms))
          rw [ihMs ms]
        · show AExpr.ifaceT (convertIfaceMethods pe n ms none)
            = AExpr.ifaceT (specDefaultMethods pe n ms)
          rw [ihMs ms]
      | mapTy k v =>
        obtain ⟨hk, _⟩ := ihE k
        obtain ⟨hv, _⟩ := ihE v
        constructor
        · show AExpr.optionalTy
              (.mapTy (convertExpr pe n k none true) (convertExpr pe n v none true))
            = AExpr.optionalTy
              (.mapTy (specDefault pe n k) (specDefault pe n v))
          rw [hk, hv]
        · show AExpr.mapTy (convertExpr pe n k none true)
              (convertExpr pe n v none true)
            = AExpr.mapTy (specDefault pe n k) (specDefault pe n v)
          rw [hk, hv]
      | chanTy v =>
        obtain ⟨hv, _⟩ := ihE v
        constructor
        · show AExpr.optionalTy (.chanTy (convertExpr pe n v none true))
            = AExpr.optionalTy (.chanTy (specDefault pe n v))
          rw [hv]
        · show AExpr.chanTy (convertExpr pe n v none true)
            = AExpr.chanTy (specDefault pe n v)
          rw [hv]
      | arrayTy elt =>
        obtain ⟨helt, _⟩ := ihE elt
        constructor
        · show AExpr.arrayTy (convertExpr pe n elt none true)
            = AExpr.arrayTy (specDefault pe n elt)
          rw [helt]
        · show AExpr.arrayTy (convertExpr pe n elt none true)
            = AExpr.arrayTy (specDefault pe n elt)
          rw [helt]
      | structTy fs =>
        constructor
        · show AExpr.structTy (convertFlds pe n fs none)
            = AExpr.structTy (specDefaultFlds pe n fs)
          rw [ihFs fs]
        · show AExpr.structTy (convertFlds pe n fs none)
            = AExpr.structTy (specDefaultFlds pe n fs)
          rw [ihFs fs]
      | optionalTy x =>
        exact ⟨rfl, rfl⟩
    · intro fs
      cases fs with
      | nil => rfl
      | cons f rest =>
        show convertFld pe n f none :: convertFlds pe n rest none
          = specDefaultFld pe n f :: specDefaultFlds pe n rest
        rw [ihF f, ihFs rest]
    · intro f
      obtain ⟨ns, d, t⟩ := f
      obtain ⟨ht, _⟩ := ihE t
      rcases ns with _ | ⟨nh, _ | ⟨nh2, ntl⟩⟩ <;>
        cases hd : d.bind pe <;>
          simp [convertFld, specDefaultFld, mrWithDoc, annType, annLookup,
            hd, ht]
    · intro ms
      cases ms with
      | nil => rfl
      | cons m rest =>
        obtain ⟨ns, d, t⟩ := m
        obtain ⟨_, ht⟩ := ihE t
        show AField.mk ns d (convertExpr pe n t none false)
            :: convertIfaceMethods pe n rest none
          = AField.mk ns d (specDefaultBare pe n t)
            :: specDefaultMethods pe n rest
        rw [ht, ihMs rest]

/-- C8 amended: with no applicable annotation or doc comment, the
importer's conversion implements exactly the defaulting rule modelled
from the spec (wrapping pointer, map, channel, function and interface
nodes and optionable identifiers in Optional nodes, recursively), except
that a TypeSpec's own top-level type node is converted without wrapping;
and an applicable annotation whose type text parses replaces the
converted node outright. -/
theorem convertAST_defaulting (pe : String → Option AExpr) (fuel : Nat)
    (e : AExpr) (sdoc : Option String) (name : String) (ann : Ann) (r : AExpr)
    (hdoc : mrWithDoc pe none sdoc = none)
    (hann : (annType ann).bind pe = some r) :
    convertExpr pe fuel e none true = specDefault pe fuel e
    ∧ convertTypeSpec pe fuel sdoc name e none
        = .typeSpec sdoc name (specDefaultBare pe fuel e)
    ∧ convertExpr pe (fuel + 1) e ann true = r := by
  obtain ⟨hE, _, _, _⟩ := conv_default_aux pe fuel
  refine ⟨(hE e).1, ?_, ?_⟩
  · unfold convertTypeSpec
    rw [hdoc]
    show ASpec.typeSpec sdoc name (convertExpr pe fuel e none false)
      = ASpec.typeSpec sdoc name (specDefaultBare pe fuel e)
    rw [(hE e).2]
  · simp [convertExpr, hann]

/-- Instance of the defaulting theorem at the pointer type *int, with an
annotation whose type text t parses to the identifier R. -/
theorem convertAST_defaulting_w :
    convertExpr (fun _ => some (.ident "R" false)) 1
        (.star (.ident "int" false)) none true
      = specDefault (fun _ => some (.ident "R" false)) 1
          (.star (.ident "int" false))
    ∧ convertTypeSpec (fun _ => some (.ident "R" false)) 1 none "T"
          (.star (.ident "int" false)) none
        = .typeSpec none "T"
            (specDefaultBare (fun _ => some (.ident "R" false)) 1
              (.star (.ident "int" false)))
    ∧ convertExpr (fun _ => some (.ident "R" false)) 2
          (.star (.ident "int" false)) (some ⟨"", "t", none⟩) true
        = .ident "R" false :=
  convertAST_defaulting (fun _ => some (.ident "R" false)) 1
    (.star (.ident "int" false)) none "T" (some ⟨"", "t", none⟩)
    (.ident "R" false) rfl rfl

/-- C8: with no annotation at all, the declared type of a TypeSpec keeps
its top-level pointer node unwrapped: converting type T *int leaves *int
in place instead of producing an Optional-wrapped pointer. -/
theorem convertFile_typespec_pointer_unwrapped_cex :
    convertFile (fun _ => none) (fun _ => none) 3
      [.genDecl none [.typeSpec none "T" (.star (.ident "int" false))]] none
      = [.genDecl none [.typeSpec none "T" (.star (.ident "int" false))]] := rfl

/-- C10 amended: for every annotation source whose parse succeeds with
binding table m, and every nonempty item name N with no plain binding of
its own, a binding of the dot-joined key N.M to a nonempty type text T
makes Lookup(N) followed by Lookup(M) return an annotation whose Type()
is T with true; a plain binding of N itself would instead end the chain
at a type annotation with no table. -/
theorem ParseAnn_dot_join_lookup (s : String) (m : List (String × String))
    (N M T : String)
    (hp : ParseAnn s = (some ⟨"", "", some m⟩, false))
    (hne : (N == "") = false)
    (hN : mget m N = none)
    (hNM : mget m (N ++ "." ++ M) = some T)
    (hT : (T == "") = false) :
    annType (annLookup (annLookup (ParseAnn s).1 N) M) = some T := by
  rw [hp]
  have h1 : annLookup (some ⟨"", "", some m⟩) N = some ⟨N, "", some m⟩ := by
    unfold annLookup
    simp [hN]
  show annType (annLookup (annLookup (some ⟨"", "", some m⟩) N) M) = some T
  rw [h1]
  unfold annLookup
  simp [hne, hNM, annType, hT]

/-- Instance of the dot-join lookup theorem on the two-line source
defining N as a braced item with sub-item M of type int. -/
theorem ParseAnn_dot_join_lookup_w :
    annType (annLookup (annLookup
        (ParseAnn "N \x7b\nM int\n\x7d\n").1 "N") "M") = some "int" :=
  ParseAnn_dot_join_lookup "N \x7b\nM int\n\x7d\n" [("N.M", "int")]
    "N" "M" "int" rfl rfl rfl rfl rfl

/-- C10: a source in which the braced item N \x7bM int\x7d is followed
by a plain item N *T parses to a table holding both N.M and N, and the
plain binding of N makes Lookup(N) return a type annotation with no
table, so the subsequent Lookup(M) returns nil and Type() fails. -/
theorem ParseAnn_plain_shadows_cex :
    (ParseAnn "N \x7b\nM int\n\x7d\nN *T\n").2 = false
    ∧ (ParseAnn "N \x7b\nM int\n\x7d\nN *T\n").1
        = some ⟨"", "", some [("N.M", "int"), ("N", "*T")]⟩
    ∧ mget [("N.M", "int"), ("N", "*T")] "N.M" = some "int"
    ∧ annType (annLookup (annLookup
        (ParseAnn "N \x7b\nM int\n\x7d\nN *T\n").1 "N") "M") = none :=
  ⟨rfl, rfl, rfl, rfl⟩

end SGo